import Mathlib

/-!
Verification of the streaming-JSON protocol of the language-learning platform.

The producer side is the `POST /session/continue` handler in
`backend/src/routes/apiRoutes.ts` (lines 119-165): it writes a single JSON
object progressively, escaping each text fragment and closing the object with a
fixed all-null tail.  The consumer side is `processStream` in the frontend hook
`useStreamingResponse` : it accumulates chunks, locates the `"response": "`
marker, streams the new portion of the value as deltas, and attempts a
structural-balance check plus `JSON.parse` after every chunk.

Strings are modelled as `List Char` (one element per JS string position;
the UTF-16 surrogate-pair representation of astral characters is below the
granularity of every claim).  `JSON.parse` is modelled by a fuel-structural
recursive-descent parser for the JSON grammar; numbers are kept as their raw
token so that no floating-point semantics is needed (all claims compare parses
of literal-identical text).
-/

namespace LLStream

/-! ### Character classes and whitespace -/

/-- The four whitespace characters of the JSON grammar (accepted by `JSON.parse`
around tokens). -/
def jsonWs (c : Char) : Bool :=
  c == ' ' || c == '\t' || c == '\n' || c == '\r'

/-- Whitespace as recognised by JavaScript `String.prototype.trim`
(ECMAScript WhiteSpace and LineTerminator sets). -/
def jsWsChar (c : Char) : Bool :=
  c == ' ' || c == '\t' || c == '\n' || c == '\r' || c == '\x0b' || c == '\x0c' ||
  c == '\u00a0' || c == '\u1680' || (0x2000 ≤ c.toNat && c.toNat ≤ 0x200a) ||
  c == '\u2028' || c == '\u2029' || c == '\u202f' || c == '\u205f' ||
  c == '\u3000' || c == '\ufeff'

/-- `String.prototype.trim`. -/
def jsTrim (l : List Char) : List Char :=
  ((l.dropWhile jsWsChar).reverse.dropWhile jsWsChar).reverse

/-- Skip JSON whitespace. -/
def skipWs (l : List Char) : List Char := l.dropWhile jsonWs

/-! ### JSON values and the `JSON.parse` model -/

/-- A parsed JSON value.  Numbers keep their raw source token: `JSON.parse`
would convert the token to a float, and every claim compares parses of
literally identical number text, so token equality is the right granularity. -/
inductive Json where
  | null
  | bool (b : Bool)
  | num (tok : List Char)
  | str (s : List Char)
  | arr (elems : List Json)
  | obj (members : List (List Char × Json))

/-- Value of a hex digit, `none` for other characters. -/
def hexDigitVal (c : Char) : Option Nat :=
  let n := c.toNat
  if 48 ≤ n ∧ n ≤ 57 then some (n - 48)
  else if 65 ≤ n ∧ n ≤ 70 then some (n - 55)
  else if 97 ≤ n ∧ n ≤ 102 then some (n - 87)
  else none

/-- The single-character JSON string escapes. -/
def simpleUnescape : Char → Option Char
  | '"' => some '"'
  | '\\' => some '\\'
  | '/' => some '/'
  | 'b' => some '\x08'
  | 'f' => some '\x0c'
  | 'n' => some '\n'
  | 'r' => some '\r'
  | 't' => some '\t'
  | _ => none

/-- Parse the body of a JSON string after the opening quote, returning the
unescaped content and the remainder after the closing quote.  Raw control
characters below U+0020 are rejected, as by `JSON.parse`.  (`\uXXXX` escapes
denoting unpaired surrogates are rejected rather than producing a lone
surrogate code unit; no claim involves such input.) -/
def parseStringBody : List Char → Option (List Char × List Char)
  | '"' :: rest => some ([], rest)
  | '\\' :: 'u' :: a :: b :: c :: d :: rest =>
    (match hexDigitVal a, hexDigitVal b, hexDigitVal c, hexDigitVal d with
     | some va, some vb, some vc, some vd =>
       let n := ((va * 16 + vb) * 16 + vc) * 16 + vd
       if Nat.isValidChar n then
         match parseStringBody rest with
         | some (s, r) => some (Char.ofNat n :: s, r)
         | none => none
       else none
     | _, _, _, _ => none)
  | '\\' :: e :: rest =>
    (match simpleUnescape e with
     | some ch =>
       match parseStringBody rest with
       | some (s, r) => some (ch :: s, r)
       | none => none
     | none => none)
  | c :: rest =>
    if c.toNat < 32 then none
    else
      match parseStringBody rest with
      | some (s, r) => some (c :: s, r)
      | none => none
  | [] => none

/-- Characters that can occur in a JSON number token (maximal-munch set). -/
def numChar (c : Char) : Bool :=
  c.isDigit || c == '-' || c == '+' || c == '.' || c == 'e' || c == 'E'

/-- Require at least one digit; return the remainder after the digit run. -/
def digitsThen (l : List Char) : Option (List Char) :=
  match l.takeWhile Char.isDigit with
  | [] => none
  | _ => some (l.dropWhile Char.isDigit)

/-- Validate the exponent part of a number token (must end the token). -/
def validExpPart : List Char → Bool
  | [] => true
  | 'e' :: r =>
    (match (match r with | '+' :: r2 => r2 | '-' :: r2 => r2 | r2 => r2) with
     | r1 => match digitsThen r1 with
             | some [] => true
             | _ => false)
  | 'E' :: r =>
    (match (match r with | '+' :: r2 => r2 | '-' :: r2 => r2 | r2 => r2) with
     | r1 => match digitsThen r1 with
             | some [] => true
             | _ => false)
  | _ => false

/-- Validate the fraction-and-exponent part of a number token. -/
def validFracPart : List Char → Bool
  | '.' :: r =>
    (match digitsThen r with
     | some r2 => validExpPart r2
     | none => false)
  | r => validExpPart r

/-- Validate a whole number token against the JSON number grammar
(`-? (0 | [1-9][0-9]*) frac? exp?`). -/
def validNumTok (t : List Char) : Bool :=
  match (match t with | '-' :: r => r | r => r) with
  | '0' :: r => validFracPart r
  | c :: r =>
    if c.isDigit then validFracPart ((c :: r).dropWhile Char.isDigit) else false
  | [] => false

/-- Parse a JSON number: take the maximal run of number characters and validate
it against the grammar. -/
def parseNumber (l : List Char) : Option (Json × List Char) :=
  let tok := l.takeWhile numChar
  if validNumTok tok then some (.num tok, l.dropWhile numChar) else none

/-- Parse the members of an object after the first member's opening quote has
been reached (input starts at a `"` or the parse fails).  `pv` parses one value
(it is `parseValue` at the enclosing fuel).  Structural on its own fuel; each
iteration consumes at least one character, so `input length + 1` fuel always
suffices. -/
def parseMembersF (pv : List Char → Option (Json × List Char)) :
    Nat → List (List Char × Json) → List Char → Option (Json × List Char)
  | 0, _, _ => none
  | fuel + 1, acc, l =>
    match l with
    | '"' :: r =>
      (match parseStringBody r with
       | some (k, r1) =>
         (match skipWs r1 with
          | ':' :: r2 =>
            (match pv (skipWs r2) with
             | some (v, r3) =>
               (match skipWs r3 with
                | '\x7d' :: r4 => some (.obj (acc ++ [(k, v)]), r4)
                | ',' :: r4 => parseMembersF pv fuel (acc ++ [(k, v)]) (skipWs r4)
                | _ => none)
             | none => none)
          | _ => none)
       | none => none)
    | _ => none

/-- Parse the elements of a non-empty array; input starts at the first element
(whitespace already skipped). -/
def parseElemsF (pv : List Char → Option (Json × List Char)) :
    Nat → List Json → List Char → Option (Json × List Char)
  | 0, _, _ => none
  | fuel + 1, acc, l =>
    match pv l with
    | some (v, r) =>
      (match skipWs r with
       | ']' :: r1 => some (.arr (acc ++ [v]), r1)
       | ',' :: r1 => parseElemsF pv fuel (acc ++ [v]) (skipWs r1)
       | _ => none)
    | none => none

/-- Parse one JSON value; the input starts at the value (no leading
whitespace).  The fuel bounds the nesting depth only; `input length + 1` always
suffices. -/
def parseValue : Nat → List Char → Option (Json × List Char)
  | 0, _ => none
  | fuel + 1, l =>
    match l with
    | '\x7b' :: r =>
      (match skipWs r with
       | '\x7d' :: r1 => some (.obj [], r1)
       | l1 => parseMembersF (parseValue fuel) (l1.length + 1) [] l1)
    | '[' :: r =>
      (match skipWs r with
       | ']' :: r1 => some (.arr [], r1)
       | l1 => parseElemsF (parseValue fuel) (l1.length + 1) [] l1)
    | '"' :: r =>
      (match parseStringBody r with
       | some (s, r1) => some (.str s, r1)
       | none => none)
    | 't' :: 'r' :: 'u' :: 'e' :: r => some (.bool true, r)
    | 'f' :: 'a' :: 'l' :: 's' :: 'e' :: r => some (.bool false, r)
    | 'n' :: 'u' :: 'l' :: 'l' :: r => some (.null, r)
    | c :: r => if c.isDigit || c == '-' then parseNumber (c :: r) else none
    | [] => none

/-- The model of `JSON.parse`: one value surrounded by optional JSON
whitespace; anything else is a syntax error (`none`). -/
def jsonParse (l : List Char) : Option Json :=
  match parseValue (l.length + 1) (skipWs l) with
  | some (v, r) => if skipWs r = [] then some v else none
  | none => none

/-! ### The encoder (`POST /session/continue` handler, apiRoutes.ts 119-165) -/

/-- Replace every occurrence of character `t` by the string `r`
(JS `String.prototype.replace` with a global single-character pattern). -/
def replaceAll (t : Char) (r : List Char) (l : List Char) : List Char :=
  l.flatMap fun c => if c = t then r else [c]

/-- The escaping chain of the handler, literally:
`.replace(backslash).replace(quote).replace(newline).replace(cr).replace(tab)`,
innermost first. -/
def jsEscape (l : List Char) : List Char :=
  replaceAll '\t' ['\\', 't'] (replaceAll '\r' ['\\', 'r'] (replaceAll '\n' ['\\', 'n']
    (replaceAll '"' ['\\', '"'] (replaceAll '\\' ['\\', '\\'] l))))

/-- Per-character form of the same escaping (proved equal to `jsEscape`). -/
def escChar (c : Char) : List Char :=
  if c = '\\' then ['\\', '\\']
  else if c = '"' then ['\\', '"']
  else if c = '\n' then ['\\', 'n']
  else if c = '\r' then ['\\', 'r']
  else if c = '\t' then ['\\', 't']
  else [c]

/-- Escaping as a character-wise map. -/
def escapeJSON (l : List Char) : List Char := l.flatMap escChar

/-- The literal opening write of the handler: `res.write('{"response": "')`. -/
def encHeader : List Char := "\x7b\"response\": \"".toList

/-- The literal closing write of the handler (closing quote of the value plus
the fixed all-null remaining fields). -/
def encTail : List Char :=
  "\", \"currentCategory\": null, \"currentWord\": null, \"currentWordProgress\": null, \"exercises\": null\x7d".toList

/-- The sequence of writes the handler performs for a list of upstream
fragments followed by the done signal: header, one escaped write per fragment,
then the closing tail.  Each write reaches the transport as one chunk. -/
def encoderWrites (frags : List (List Char)) : List (List Char) :=
  encHeader :: frags.map jsEscape ++ [encTail]

/-- The complete byte sequence the handler produces. -/
def encodeStream (frags : List (List Char)) : List Char :=
  encHeader ++ frags.flatMap jsEscape ++ encTail

/-- The bytes written after the first `k` fragments (a fragment boundary
prefix of the output). -/
def encodedUpTo (frags : List (List Char)) (k : Nat) : List Char :=
  encHeader ++ (frags.take k).flatMap jsEscape

/-- The complete wire object carrying response value `s` (as unescaped text)
with the fixed all-null tail, exactly as the handler emits it. -/
def wire (s : List Char) : List Char := encHeader ++ escapeJSON s ++ encTail

/-- The parsed form of `wire s`: the `ParsedObject` with `response = s` and all
optional fields null, members in wire order. -/
def objNull (s : List Char) : Json :=
  .obj [("response".toList, .str s), ("currentCategory".toList, .null),
        ("currentWord".toList, .null), ("currentWordProgress".toList, .null),
        ("exercises".toList, .null)]

/-- A character that survives the handler's escaping as legal JSON string
content: either not a control character, or one of the three control
characters the handler escapes. -/
def safeChar (c : Char) : Bool :=
  32 ≤ c.toNat || c == '\n' || c == '\r' || c == '\t'

/-! ### The decoder (`processStream` in useStreamingResponse) -/

/-- The field marker searched for by the decoder: `'"response": "'`
(13 characters). -/
def respMarker : List Char := "\"response\": \"".toList

/-- The decoder's per-stream mutable state:
`fullStreamContent`, `isInsideResponseValue`, `responseValueStartIndex`
(initially `-1`), `responseValueSentSoFar`. -/
structure DecState where
  buf : List Char
  insideValue : Bool
  startIdx : Int
  sent : List Char

/-- State at `beginStream`. -/
def initState : DecState := ⟨[], false, -1, []⟩

/-- Count of consecutive backslashes immediately before position `p`,
never looking below index `low` (the decoder bounds its backslash loop by
`k >= responseValueStartIndex`). -/
def bsCount (buf : List Char) (low : Nat) : Nat → Nat
  | 0 => 0
  | p + 1 => if low ≤ p ∧ buf[p]? = some '\\' then bsCount buf low p + 1 else 0

/-- The decoder's end-quote scan from index `i`: the first position holding a
quote preceded by an even number of consecutive backslashes. -/
def findEndAux (buf : List Char) (vs : Nat) : Nat → Nat → Option Nat
  | 0, _ => none
  | fuel + 1, i =>
    match buf[i]? with
    | none => none
    | some c =>
      if c = '"' ∧ bsCount buf vs i % 2 = 0 then some i
      else findEndAux buf vs fuel (i + 1)

/-- Scan for the unescaped closing quote of the value starting at `vs`. -/
def findEndQuote (buf : List Char) (vs : Nat) : Option Nat :=
  findEndAux buf vs (buf.length + 1) vs

/-- JS `String.prototype.indexOf(pat, i)` (first occurrence at or after `i`). -/
def indexOfAux (s pat : List Char) : Nat → Nat → Option Nat
  | 0, _ => none
  | fuel + 1, i =>
    if i + pat.length ≤ s.length then
      if pat.isPrefixOf (s.drop i) then some i else indexOfAux s pat fuel (i + 1)
    else none

/-- First occurrence of `pat` in `s` at an index `≥ start`. -/
def indexOfFrom (s pat : List Char) (start : Nat) : Option Nat :=
  indexOfAux s pat (s.length + 1) start

/-- State of the decoder's completion scan: brace level, inside-string flag,
escaped flag. -/
structure ScanState where
  lvl : Int
  inStr : Bool
  esc : Bool

/-- One character of the completion scan, literally following the loop body:
toggle `inString` on an unescaped quote, then count braces outside strings
using the updated flag, then update `escaped`. -/
def scanStep (st : ScanState) (c : Char) : ScanState :=
  let ins := if c == '"' && !st.esc then !st.inStr else st.inStr
  let lvl := if !ins then
               (if c == '\x7b' then st.lvl + 1
                else if c == '\x7d' then st.lvl - 1 else st.lvl)
             else st.lvl
  ⟨lvl, ins, c == '\\' && !st.esc⟩

/-- The completion scan over a buffer, from level 0, outside any string. -/
def jsonScan (l : List Char) : ScanState := l.foldl scanStep ⟨0, false, false⟩

/-- The decoder's structural completion condition: brace level zero, not inside
a string, and the buffer contains at least one `{` and one `}`. -/
def completionReady (buf : List Char) : Bool :=
  let st := jsonScan buf
  st.lvl == 0 && !st.inStr && buf.contains '\x7b' && buf.contains '\x7d'

/-- The decoder's event stream. -/
inductive SEvent where
  | delta (text : List Char)
  | complete (v : Json)
  | err (msg : List Char)

/-- Message of `throw new Error` for a stream ending inside the value. -/
def msgUnterminated : List Char :=
  "Stream ended unexpectedly while parsing response value.".toList

/-- Message for a stream ending with unparseable non-empty content. -/
def msgInvalidFinal : List Char :=
  "Stream ended with incomplete or invalid JSON object.".toList

/-- Message for a stream ending with no content. -/
def msgNoContent : List Char := "Stream ended with no content.".toList

/-- Message for the buffer-size ceiling. -/
def msgMaxLength : List Char :=
  "Stream exceeded max length without valid JSON.".toList

/-- The marker-search phase of one consume step over the appended buffer:
when not yet inside the value, look for the marker from
`responseValueStartIndex` (or 0 while it is still `-1`); on a hit the state
becomes inside-value with the value start right after the marker. -/
def markerScan (st : DecState) (buf : List Char) : Bool × Int :=
  if st.insideValue then (true, st.startIdx)
  else
    match indexOfFrom buf respMarker (if st.startIdx > -1 then st.startIdx.toNat else 0) with
    | some k => (true, (k : Int) + 13)
    | none => (false, st.startIdx)

/-- The value-scan phase: rescan from the value start for an unescaped closing
quote.  Returns `currentResponseValue`, the new inside-value flag, and the new
start index (one past the closing quote when found). -/
def valueScan (buf : List Char) (start1 : Int) : List Char × Bool × Int :=
  let vs := start1.toNat
  match findEndQuote buf vs with
  | some q => ((buf.take q).drop vs, false, (q : Int) + 1)
  | none => (buf.drop vs, true, start1)

/-- The delta emitted for a computed value, given what was already sent: the
slice past the cursor when the value got longer, nothing otherwise. -/
def deltaOf (sent cur : List Char) : List SEvent :=
  if cur.length > sent.length then [SEvent.delta (cur.drop sent.length)] else []

/-- The updated `responseValueSentSoFar`. -/
def sentAfter (sent cur : List Char) : List Char :=
  if cur.length > sent.length then cur else sent

/-- The `currentResponseValue` computed by the scan of one consume step (the
local the delta slice and the cursor update are taken from).  When the step is
not inside the value no value is computed and the cursor is untouched; the
previously sent text is returned so the cursor bound is trivially true there. -/
def stepValue (st : DecState) (chunk : List Char) : List Char :=
  let buf := st.buf ++ chunk
  let ms := markerScan st buf
  if ms.1 then (valueScan buf ms.2).1 else st.sent

/-- The state after one consume step: buffer appended, inside-flag and start
index from the marker/value scans, cursor advanced when the value grew. -/
def stateAfter (st : DecState) (chunk : List Char) : DecState :=
  let buf := st.buf ++ chunk
  let ms := markerScan st buf
  if ms.1 then
    let v := valueScan buf ms.2
    ⟨buf, v.2.1, v.2.2, sentAfter st.sent v.1⟩
  else ⟨buf, ms.1, ms.2, st.sent⟩

/-- The terminal events of one consume step (completion check phase): the
structural check over the whole buffer, then the full parse; a successful
parse emits `Complete`; a failed parse emits the max-length error exactly when
the buffer exceeds the ceiling. -/
def finishEvents (buf : List Char) : List SEvent :=
  if completionReady buf then
    match jsonParse buf with
    | some v => [SEvent.complete v]
    | none => if buf.length > 50000 then [SEvent.err msgMaxLength] else []
  else []

/-- Whether the loop survives the completion check phase (`Complete` and the
max-length error both break it). -/
def finishAlive (buf : List Char) : Bool :=
  if completionReady buf then
    match jsonParse buf with
    | some _ => false
    | none => !decide (buf.length > 50000)
  else true

/-- One iteration of the decoder's `parseLoop` for a received chunk: append the
chunk, search for the marker when not inside the value, rescan the value from
its start, emit the new slice of the value if longer than what was sent
(`deltaOf`/`sentAfter` on `stepValue`), then run the completion check and,
when structurally ready, the full parse (`finishEvents`/`finishAlive`).
Returns the new state, the emitted events, and whether the loop continues. -/
def consumeChunk (st : DecState) (chunk : List Char) : DecState × List SEvent × Bool :=
  (stateAfter st chunk,
   deltaOf st.sent (stepValue st chunk) ++ finishEvents (st.buf ++ chunk),
   finishAlive (st.buf ++ chunk))

/-- The events of the `done` branch of the read loop: unterminated-value error
if still inside the value; otherwise a final parse of the whole buffer when it
trims non-empty (success calls `onStreamEnd`), or the no-content error. -/
def doneEvents (st : DecState) : List SEvent :=
  if st.insideValue then [SEvent.err msgUnterminated]
  else if jsTrim st.buf ≠ [] then
    match jsonParse st.buf with
    | some v => [SEvent.complete v]
    | none => [SEvent.err msgInvalidFinal]
  else [SEvent.err msgNoContent]

/-- Run the loop over a list of received chunks.  Returns the emitted events
and `some` final state when all chunks were consumed without terminating
(so end-of-stream handling still runs), `none` when the loop broke early. -/
def runChunks : DecState → List (List Char) → List SEvent × Option DecState
  | st, [] => ([], some st)
  | st, c :: cs =>
    match consumeChunk st c with
    | (st', evs, true) =>
      let r := runChunks st' cs
      (evs ++ r.1, r.2)
    | (_, evs, false) => (evs, none)

/-- The whole decoder run: consume every chunk, then the transport signals
end-of-stream. -/
def processStream (css : List (List Char)) : List SEvent :=
  match runChunks initState css with
  | (evs, some st) => evs ++ doneEvents st
  | (evs, none) => evs

/-- The texts of the delta events, in order. -/
def deltaTexts (evs : List SEvent) : List (List Char) :=
  evs.filterMap fun e => match e with | .delta t => some t | _ => none

/-- The payloads of the complete events, in order. -/
def completions (evs : List SEvent) : List Json :=
  evs.filterMap fun e => match e with | .complete v => some v | _ => none

/-- The messages of the error events, in order. -/
def errMsgs (evs : List SEvent) : List (List Char) :=
  evs.filterMap fun e => match e with | .err m => some m | _ => none

/-- Whether an event is a delta. -/
def SEvent.isDelta : SEvent → Bool
  | .delta _ => true
  | _ => false

/-! ### Helper lemmas: prefixes, the marker search, whitespace -/

theorem isPrefixOf_mem : ∀ {p l : List Char} {c : Char},
    p.isPrefixOf l = true → c ∈ p → c ∈ l
  | _ :: p', b :: l', c, h, hc => by
    simp only [List.isPrefixOf, Bool.and_eq_true, beq_iff_eq] at h
    rcases List.mem_cons.1 hc with rfl | hc'
    · exact List.mem_cons.2 (Or.inl h.1)
    · exact List.mem_cons.2 (Or.inr (isPrefixOf_mem h.2 hc'))

theorem indexOfAux_some : ∀ {f i k : Nat} {s pat : List Char},
    indexOfAux s pat f i = some k →
    pat.isPrefixOf (s.drop k) = true ∧ i ≤ k ∧ k + pat.length ≤ s.length
  | 0, i, k, s, pat, h => by simp [indexOfAux] at h
  | f + 1, i, k, s, pat, h => by
    rw [indexOfAux] at h
    split at h
    · split at h
      · rcases Option.some.inj h with rfl
        exact ⟨by assumption, le_refl _, by assumption⟩
      · obtain ⟨h1, h2, h3⟩ := indexOfAux_some h
        exact ⟨h1, Nat.le_of_succ_le h2, h3⟩
    · exact absurd h (by simp)

/-- If the pattern's first character occurs nowhere in the buffer, the search
fails. -/
theorem indexOfFrom_none_of_not_mem {s pat : List Char} {c : Char} {i : Nat}
    (hc : c ∈ pat) (hs : c ∉ s) : indexOfFrom s pat i = none := by
  cases h : indexOfFrom s pat i with
  | none => rfl
  | some k =>
    obtain ⟨h1, _, _⟩ := indexOfAux_some h
    exact absurd (List.mem_of_mem_drop (isPrefixOf_mem h1 hc)) hs

theorem dropWhile_eq_nil_of_all {p : Char → Bool} : ∀ {l : List Char},
    (∀ c ∈ l, p c = true) → l.dropWhile p = []
  | [], _ => rfl
  | c :: l', h => by
    rw [List.dropWhile_cons, if_pos (h c (List.mem_cons_self c l'))]
    exact dropWhile_eq_nil_of_all fun x hx => h x (List.mem_cons_of_mem c hx)

theorem all_of_dropWhile_eq_nil {p : Char → Bool} : ∀ {l : List Char},
    l.dropWhile p = [] → ∀ c ∈ l, p c = true
  | [], _, c, hc => absurd hc (List.not_mem_nil c)
  | a :: l', h, c, hc => by
    rw [List.dropWhile_cons] at h
    by_cases ha : p a = true
    · rw [if_pos ha] at h
      rcases List.mem_cons.1 hc with rfl | hc'
      · exact ha
      · exact all_of_dropWhile_eq_nil h c hc'
    · rw [if_neg ha] at h
      exact absurd h (by simp)

/-- A buffer trims to the empty string iff every character is JS whitespace. -/
theorem jsTrim_eq_nil_iff {l : List Char} :
    jsTrim l = [] ↔ ∀ c ∈ l, jsWsChar c = true := by
  constructor
  · intro h c hc
    have h1 : (l.dropWhile jsWsChar).reverse.dropWhile jsWsChar = [] := by
      have := congrArg List.reverse h
      simpa [jsTrim] using this
    have h2 : ∀ c ∈ (l.dropWhile jsWsChar).reverse, jsWsChar c = true :=
      all_of_dropWhile_eq_nil h1
    have h3 : ∀ c ∈ l.dropWhile jsWsChar, jsWsChar c = true := by
      intro x hx
      exact h2 x (List.mem_reverse.2 hx)
    have h4 : ∀ c ∈ l.takeWhile jsWsChar, jsWsChar c = true := by
      intro x hx
      exact List.mem_takeWhile_imp hx
    have h5 : c ∈ l.takeWhile jsWsChar ++ l.dropWhile jsWsChar := by
      rw [List.takeWhile_append_dropWhile]
      exact hc
    rcases List.mem_append.1 h5 with h6 | h6
    · exact h4 c h6
    · exact h3 c h6
  · intro h
    rw [jsTrim, dropWhile_eq_nil_of_all h]
    rfl

/-! ### Run-structure lemmas -/

/-- `deltaOf` emits only delta events. -/
theorem deltaOf_isDelta {sent cur : List Char} :
    ∀ e ∈ deltaOf sent cur, e.isDelta = true := by
  intro e he
  rw [deltaOf] at he
  split at he
  · rcases List.mem_singleton.1 he with rfl
    rfl
  · exact absurd he (List.not_mem_nil e)

/-- If the completion phase leaves the loop alive it emitted nothing. -/
theorem finishEvents_of_alive {buf : List Char}
    (h : finishAlive buf = true) : finishEvents buf = [] := by
  rw [finishAlive] at h
  rw [finishEvents]
  split
  · rename_i hcr
    rw [if_pos hcr] at h
    rcases hp : jsonParse buf with _ | v
    · rw [hp] at h
      simp only [Bool.not_eq_true'] at h
      rw [if_neg (by simpa using h)]
    · rw [hp] at h
      exact absurd h (by simp)
  · rfl

/-- The completion phase emits no deltas. -/
theorem deltaTexts_finishEvents (buf : List Char) :
    deltaTexts (finishEvents buf) = [] := by
  rw [finishEvents]
  split
  · split
    · rfl
    · split <;> rfl
  · rfl

theorem deltaTexts_append (a b : List SEvent) :
    deltaTexts (a ++ b) = deltaTexts a ++ deltaTexts b := by
  rw [deltaTexts, deltaTexts, deltaTexts, List.filterMap_append]

theorem errMsgs_append (a b : List SEvent) :
    errMsgs (a ++ b) = errMsgs a ++ errMsgs b := by
  rw [errMsgs, errMsgs, errMsgs, List.filterMap_append]

/-- As long as the loop continues, a consume step emits only delta events. -/
theorem consumeChunk_alive_delta {st : DecState} {c : List Char}
    {st' : DecState} {evs : List SEvent}
    (h : consumeChunk st c = (st', evs, true)) : ∀ e ∈ evs, e.isDelta = true := by
  intro e he
  have h2 := congrArg (fun p => p.2.1) h
  have h3 := congrArg (fun p => p.2.2) h
  simp only [consumeChunk] at h2 h3
  rw [← h2, finishEvents_of_alive h3, List.append_nil] at he
  exact deltaOf_isDelta e he

/-- Delta events carry no error messages. -/
theorem isDelta_errMsgs {evs : List SEvent}
    (h : ∀ e ∈ evs, e.isDelta = true) : errMsgs evs = [] := by
  rw [errMsgs, List.filterMap_eq_nil_iff]
  intro e he
  have := h e he
  cases e with
  | delta t => rfl
  | complete v => rfl
  | err m => exact absurd this (by simp [SEvent.isDelta])

/-! ### Whitespace-only streams -/

/-- A consume step on a whitespace-only buffer does nothing: the marker cannot
occur (it contains a quote), and the completion check fails (no brace). -/
theorem consumeChunk_ws {B ch : List Char}
    (hB : ∀ x ∈ B, jsWsChar x = true) (hch : ∀ x ∈ ch, jsWsChar x = true) :
    consumeChunk ⟨B, false, (-1 : Int), []⟩ ch = (⟨B ++ ch, false, -1, []⟩, [], true) := by
  have hws : ∀ x ∈ B ++ ch, jsWsChar x = true := by
    intro x hx
    rcases List.mem_append.1 hx with h | h
    exacts [hB x h, hch x h]
  have hq : '"' ∉ B ++ ch := fun hm => absurd (hws _ hm) (by decide)
  have hbrace : '\x7b' ∉ B ++ ch := fun hm => absurd (hws _ hm) (by decide)
  have hio : indexOfFrom (B ++ ch) respMarker 0 = none :=
    indexOfFrom_none_of_not_mem (by decide) hq
  have hcontains : (B ++ ch).contains '\x7b' = false := by simpa using hbrace
  have hrbrace : '\x7d' ∉ B ++ ch := fun hm => absurd (hws _ hm) (by decide)
  have hcr : completionReady (B ++ ch) = false := by
    rw [completionReady]
    simp only [hcontains]
    simp
  have hms : markerScan ⟨B, false, (-1 : Int), []⟩ (B ++ ch) = (false, -1) := by
    rw [markerScan]
    norm_num [hio]
  rw [consumeChunk, stateAfter, stepValue, finishEvents, finishAlive]
  simp only [hms, hcr, Bool.false_eq_true, if_false]
  rw [deltaOf, if_neg (by omega)]
  rfl

/-- A run over whitespace-only chunks emits nothing and only accumulates the
buffer. -/
theorem runChunks_ws : ∀ {css : List (List Char)} {B : List Char},
    (∀ x ∈ B, jsWsChar x = true) → (∀ ch ∈ css, ∀ x ∈ ch, jsWsChar x = true) →
    runChunks ⟨B, false, (-1 : Int), []⟩ css =
      ([], some ⟨B ++ css.flatten, false, -1, []⟩)
  | [], B, hB, hcss => by simp [runChunks]
  | c :: cs, B, hB, hcss => by
    rw [runChunks, consumeChunk_ws hB (hcss c (List.mem_cons_self c cs))]
    have hB' : ∀ x ∈ B ++ c, jsWsChar x = true := by
      intro x hx
      rcases List.mem_append.1 hx with h | h
      exacts [hB x h, hcss c (List.mem_cons_self c cs) x h]
    have ih := runChunks_ws hB' (fun ch hch => hcss ch (List.mem_cons_of_mem c hch))
    simp only [ih]
    simp [List.append_assoc]

/-! ### Cursor (sent-so-far) step behaviour -/

/-- The sent cursor after one step is the step's value when that is longer
than the cursor, unchanged otherwise; the step's deltas are exactly the slice
of the step's value past the previous cursor when it grew. -/
theorem consumeChunk_sent (st : DecState) (ch : List Char) :
    (consumeChunk st ch).1.sent = sentAfter st.sent (stepValue st ch) ∧
    deltaTexts (consumeChunk st ch).2.1 =
      (if st.sent.length < (stepValue st ch).length
       then [(stepValue st ch).drop st.sent.length] else []) := by
  constructor
  · show (stateAfter st ch).sent = _
    rw [stateAfter, stepValue]
    split
    · rfl
    · rw [sentAfter, if_neg (by omega)]
  · show deltaTexts (deltaOf st.sent (stepValue st ch) ++ finishEvents (st.buf ++ ch)) = _
    rw [deltaTexts_append, deltaTexts_finishEvents, List.append_nil, deltaOf]
    split
    · rfl
    · rfl

/-- The cursor never decreases in one step. -/
theorem consumeChunk_sent_mono (st : DecState) (ch : List Char) :
    st.sent.length ≤ (consumeChunk st ch).1.sent.length := by
  rw [(consumeChunk_sent st ch).1, sentAfter]
  split
  · omega
  · exact le_refl _

/-- Over a whole surviving run, the emitted delta texts tile exactly: the sum
of their lengths is the final cursor minus the initial one. -/
theorem runChunks_sent_total : ∀ {css : List (List Char)} {st st' : DecState}
    {evs : List SEvent}, runChunks st css = (evs, some st') →
    (deltaTexts evs).flatten.length + st.sent.length = st'.sent.length
  | [], st, st', evs, h => by
    rw [runChunks] at h
    rcases h with ⟨rfl, rfl⟩
    simp [deltaTexts]
  | c :: cs, st, st', evs, h => by
    rw [runChunks] at h
    rcases hc : consumeChunk st c with ⟨st1, evs1, alive⟩
    rw [hc] at h
    cases alive with
    | true =>
      simp only at h
      rcases hr : runChunks st1 cs with ⟨evs2, r⟩
      rw [hr] at h
      simp only at h
      rcases h with ⟨rfl, rfl⟩
      have ih := runChunks_sent_total hr
      have hstep := consumeChunk_sent st c
      rw [hc] at hstep
      have h1 := hstep.1
      have h2 := hstep.2
      simp only at h1 h2
      rw [deltaTexts_append, List.flatten_append, List.length_append, h2]
      rw [h1, sentAfter] at ih
      split
      · rename_i hlt
        rw [if_pos hlt] at ih
        simp only [List.flatten_cons, List.flatten_nil, List.append_nil,
          List.length_drop] at *
        omega
      · rename_i hlt
        rw [if_neg hlt] at ih
        simp only [List.flatten_nil, List.length_nil] at *
        omega
    | false =>
      exact absurd (congrArg Prod.snd h) (by simp)

/-! ### The end-quote scan: characterization -/

theorem findEndAux_some : ∀ {f i q : Nat} {buf : List Char} {vs : Nat},
    findEndAux buf vs f i = some q →
    i ≤ q ∧ buf[q]? = some '"' ∧ bsCount buf vs q % 2 = 0 ∧
      ∀ j, i ≤ j → j < q → buf[j]? = some '"' → bsCount buf vs j % 2 = 1
  | 0, i, q, buf, vs, h => by simp [findEndAux] at h
  | f + 1, i, q, buf, vs, h => by
    rw [findEndAux] at h
    split at h
    · exact absurd h (by simp)
    · rename_i c hb
      split at h
      · rename_i hcond
        rcases Option.some.inj h with rfl
        exact ⟨le_refl _, by rw [hb, hcond.1], hcond.2,
          fun j h1 h2 _ => absurd (lt_of_le_of_lt h1 h2) (lt_irrefl _)⟩
      · rename_i hcond
        obtain ⟨h1, h2, h3, h4⟩ := findEndAux_some h
        refine ⟨by omega, h2, h3, fun j hj1 hj2 hj3 => ?_⟩
        rcases Nat.eq_or_lt_of_le hj1 with rfl | hlt
        · rw [hb] at hj3
          have hcq : c = '"' := Option.some.inj hj3
          have hne : ¬ bsCount buf vs i % 2 = 0 := fun he => hcond ⟨hcq, he⟩
          omega
        · exact h4 j hlt hj2 hj3

theorem findEndAux_complete : ∀ {f i q : Nat} {buf : List Char} {vs : Nat},
    buf.length + 1 ≤ f + i → i ≤ q → buf[q]? = some '"' →
    bsCount buf vs q % 2 = 0 →
    (∀ j, i ≤ j → j < q → buf[j]? = some '"' → bsCount buf vs j % 2 = 1) →
    ∃ q', findEndAux buf vs f i = some q' ∧ q' ≤ q
  | 0, i, q, buf, vs, hf, hiq, hq, he, hmin => by
    have hql : q < buf.length := by
      rcases lt_or_ge q buf.length with h | h
      · exact h
      · rw [List.getElem?_eq_none h] at hq
        exact absurd hq (by simp)
    omega
  | f + 1, i, q, buf, vs, hf, hiq, hq, he, hmin => by
    have hql : q < buf.length := by
      rcases lt_or_ge q buf.length with h | h
      · exact h
      · rw [List.getElem?_eq_none h] at hq
        exact absurd hq (by simp)
    rw [findEndAux]
    split
    · rename_i hb
      rw [List.getElem?_eq_none_iff] at hb
      omega
    · rename_i c hb
      split
      · exact ⟨i, rfl, hiq⟩
      · rename_i hcond
        have hne : i ≠ q := by
          rintro rfl
          rw [hb] at hq
          exact hcond ⟨Option.some.inj hq, he⟩
        exact findEndAux_complete (f := f) (i := i + 1)
          (by omega) (by omega) hq he
          (fun j hj1 hj2 hj3 => hmin j (by omega) hj2 hj3)

/-- Characterization of the decoder's end-quote scan: it returns exactly the
first position at or after the value start holding a quote preceded by an
even run of backslashes. -/
theorem findEndQuote_iff {buf : List Char} {vs q : Nat} :
    findEndQuote buf vs = some q ↔
      (vs ≤ q ∧ buf[q]? = some '"' ∧ bsCount buf vs q % 2 = 0 ∧
       ∀ j, vs ≤ j → j < q → buf[j]? = some '"' → bsCount buf vs j % 2 = 1) := by
  constructor
  · intro h
    exact findEndAux_some h
  · rintro ⟨h1, h2, h3, h4⟩
    obtain ⟨q', hq', hle⟩ := findEndAux_complete (f := buf.length + 1) (i := vs)
      (by omega) h1 h2 h3 h4
    obtain ⟨g1, g2, g3, g4⟩ := findEndAux_some hq'
    rcases Nat.eq_or_lt_of_le hle with rfl | hlt
    · exact hq'
    · have := h4 q' g1 hlt g2
      omega

/-! ### Marker non-reoccurrence: no deltas after the value closes -/

theorem isPrefixOf_append_right : ∀ {p l : List Char} (r : List Char),
    p.isPrefixOf l = true → p.isPrefixOf (l ++ r) = true
  | [], l, r, _ => by simp [List.isPrefixOf]
  | a :: p', b :: l', r, h => by
    simp only [List.isPrefixOf, Bool.and_eq_true] at h ⊢
    exact ⟨h.1, isPrefixOf_append_right r h.2⟩

theorem indexOfAux_isSome : ∀ {f i j : Nat} {s pat : List Char},
    pat ≠ [] → pat.isPrefixOf (s.drop j) = true → i ≤ j →
    s.length + 1 ≤ f + i → (indexOfAux s pat f i).isSome = true
  | 0, i, j, s, pat, hne, hpre, hij, hf => by
    have hlen : pat.length ≤ s.length - j := by
      have := List.IsPrefix.length_le (List.isPrefixOf_iff_prefix.1 hpre)
      simpa using this
    have hplen : 1 ≤ pat.length := by
      cases pat with
      | nil => exact absurd rfl hne
      | cons a t => simp
    omega
  | f + 1, i, j, s, pat, hne, hpre, hij, hf => by
    have hplen : 1 ≤ pat.length := by
      cases pat with
      | nil => exact absurd rfl hne
      | cons a t => simp
    have hlen : pat.length ≤ s.length - j := by
      have := List.IsPrefix.length_le (List.isPrefixOf_iff_prefix.1 hpre)
      simpa using this
    rw [indexOfAux]
    rw [if_pos (by omega)]
    split
    · simp
    · rename_i hnp
      rcases Nat.eq_or_lt_of_le hij with rfl | hlt
      · exact absurd hpre hnp
      · exact indexOfAux_isSome hne hpre hlt (by omega)

/-- If the marker has no occurrence at or after `start` in the whole stream
content `W`, it has none in any prefix of `W` either. -/
theorem indexOfFrom_none_of_total {B W : List Char} {start : Nat}
    (hBW : ∃ t, B ++ t = W)
    (hW : indexOfFrom W respMarker start = none) :
    indexOfFrom B respMarker start = none := by
  rcases hBW with ⟨t, rfl⟩
  cases h : indexOfFrom B respMarker start with
  | none => rfl
  | some k =>
    obtain ⟨h1, h2, h3⟩ := indexOfAux_some h
    have hpre : respMarker.isPrefixOf ((B ++ t).drop k) = true := by
      rw [List.drop_append_eq_append_drop]
      exact isPrefixOf_append_right _ h1
    have hsome := @indexOfAux_isSome ((B ++ t).length + 1) start k (B ++ t)
      respMarker (by decide) hpre h2 (by omega)
    rw [indexOfFrom] at hW
    rw [hW] at hsome
    exact absurd hsome (by simp)

/-- After the value has closed (not inside, non-negative resume index), if the
marker never reoccurs at or after the resume index in the whole remaining
stream, no later consume step emits any delta. -/
theorem runChunks_no_marker_no_delta : ∀ {css : List (List Char)} {st : DecState},
    st.insideValue = false → 0 ≤ st.startIdx →
    indexOfFrom (st.buf ++ css.flatten) respMarker st.startIdx.toNat = none →
    deltaTexts (runChunks st css).1 = []
  | [], st, _, _, _ => by
    rw [runChunks]
    rfl
  | c :: cs, st, hin, hge, hno => by
    rw [runChunks]
    have hfl : st.buf ++ (c :: cs).flatten = (st.buf ++ c) ++ cs.flatten := by
      rw [List.flatten_cons, List.append_assoc]
    have hno1 : indexOfFrom (st.buf ++ c) respMarker st.startIdx.toNat = none := by
      refine indexOfFrom_none_of_total ⟨cs.flatten, ?_⟩ (hfl ▸ hno)
      rfl
    have hms : markerScan st (st.buf ++ c) = (false, st.startIdx) := by
      rw [markerScan, if_neg (by simp [hin])]
      rw [if_pos (show st.startIdx > -1 by omega)]
      rw [hno1]
    have hsv : stepValue st c = st.sent := by
      rw [stepValue]
      simp only [hms]
      simp
    have hsa : stateAfter st c = ⟨st.buf ++ c, false, st.startIdx, st.sent⟩ := by
      rw [stateAfter]
      simp only [hms]
      simp
    have hdo : deltaOf st.sent (stepValue st c) = [] := by
      rw [hsv, deltaOf, if_neg (by omega)]
    rw [consumeChunk, hdo, hsa, List.nil_append]
    cases hal : finishAlive (st.buf ++ c) with
    | true =>
      simp only
      rw [finishEvents_of_alive hal, deltaTexts_append]
      have ih := @runChunks_no_marker_no_delta cs
        ⟨st.buf ++ c, false, st.startIdx, st.sent⟩ rfl hge (by rw [← hfl]; exact hno)
      simp only [deltaTexts, List.filterMap_nil, List.nil_append]
      exact ih
    | false =>
      simp only
      rw [deltaTexts_finishEvents]

/-! ### Structure of the literal header and marker -/

theorem respMarker_len : respMarker.length = 13 := rfl

theorem encHeader_cons : encHeader = '\x7b' :: respMarker := rfl

theorem encHeader_len : encHeader.length = 14 := rfl

theorem isPrefixOf_self_append (p r : List Char) : p.isPrefixOf (p ++ r) = true := by
  induction p with
  | nil => simp [List.isPrefixOf]
  | cons a p' ih => simp [List.isPrefixOf, ih]

theorem indexOfAux_hit {s pat : List Char} {f i : Nat} (hf : 1 ≤ f)
    (hl : i + pat.length ≤ s.length) (hp : pat.isPrefixOf (s.drop i) = true) :
    indexOfAux s pat f i = some i := by
  cases f with
  | zero => omega
  | succ f' => rw [indexOfAux, if_pos hl, if_pos hp]

theorem indexOfAux_miss {s pat : List Char} {f i : Nat}
    (hl : i + pat.length ≤ s.length) (hp : pat.isPrefixOf (s.drop i) = false) :
    indexOfAux s pat (f + 1) i = indexOfAux s pat f (i + 1) := by
  rw [indexOfAux, if_pos hl, if_neg (by simp [hp])]

/-- In any buffer starting with the literal header, the marker search from 0
finds the marker at index 1 (right after the opening brace). -/
theorem indexOfFrom_marker_header (X : List Char) :
    indexOfFrom (encHeader ++ X) respMarker 0 = some 1 := by
  have hlen : (encHeader ++ X).length = 14 + X.length := by
    rw [List.length_append, encHeader_len]
  have h0 : respMarker.isPrefixOf ((encHeader ++ X).drop 0) = false := by
    rw [List.drop_zero, encHeader_cons]
    rfl
  have h1 : (encHeader ++ X).drop 1 = respMarker ++ X := by
    rw [encHeader_cons]
    rfl
  rw [indexOfFrom, indexOfAux_miss (by rw [respMarker_len]; omega) h0]
  exact indexOfAux_hit (by omega) (by rw [respMarker_len]; omega)
    (h1 ▸ isPrefixOf_self_append respMarker X)

/-- The scan finds no closing quote when no quote occurs at or after the value
start. -/
theorem findEndQuote_none {buf : List Char} {vs : Nat}
    (h : ∀ j, vs ≤ j → buf[j]? ≠ some '"') : findEndQuote buf vs = none := by
  cases hq : findEndQuote buf vs with
  | none => rfl
  | some q =>
    obtain ⟨h1, h2, _⟩ := findEndAux_some hq
    exact absurd h2 (h q h1)

theorem noQuote_header_rep (n : Nat) :
    ∀ j, 14 ≤ j → (encHeader ++ List.replicate n 'a')[j]? ≠ some '"' := by
  intro j hj
  rw [List.getElem?_append_right (by rw [encHeader_len]; omega), encHeader_len]
  rcases lt_or_ge (j - 14) n with h | h
  · rw [List.getElem?_replicate, if_pos h]
    simp
  · rw [List.getElem?_eq_none (by rw [List.length_replicate]; omega)]
    simp

/-! ### The completion scan over plain character runs -/

theorem scanStep_plain {st : ScanState} {c : Char} (h1 : (c == '"') = false)
    (h2 : (c == '\\') = false) (h3 : (c == '\x7b') = false)
    (h4 : (c == '\x7d') = false) :
    scanStep st c = ⟨st.lvl, st.inStr, false⟩ := by
  rw [scanStep]
  simp [h1, h2, h3, h4]

theorem scan_replicate_plain {c : Char} (h1 : (c == '"') = false)
    (h2 : (c == '\\') = false) (h3 : (c == '\x7b') = false)
    (h4 : (c == '\x7d') = false) :
    ∀ (n : Nat) (d : Int) (b : Bool),
    List.foldl scanStep ⟨d, b, false⟩ (List.replicate n c) = ⟨d, b, false⟩
  | 0, d, b => rfl
  | n + 1, d, b => by
    rw [List.replicate_succ, List.foldl_cons, scanStep_plain h1 h2 h3 h4]
    exact scan_replicate_plain h1 h2 h3 h4 n d b

/-! ### The never-closing stream family -/

theorem completionReady_unclosed (n : Nat) :
    completionReady (encHeader ++ List.replicate n 'a') = false := by
  rw [completionReady]
  have hscan : jsonScan (encHeader ++ List.replicate n 'a') = ⟨1, true, false⟩ := by
    rw [jsonScan, List.foldl_append]
    have hh : List.foldl scanStep ⟨0, false, false⟩ encHeader = ⟨1, true, false⟩ := rfl
    rw [hh]
    exact scan_replicate_plain (by decide) (by decide) (by decide) (by decide) n 1 true
  rw [hscan]
  simp

theorem valueScan_unclosed (k : Nat) :
    valueScan (encHeader ++ List.replicate k 'a') (14 : Int) =
      (List.replicate k 'a', true, (14 : Int)) := by
  rw [valueScan]
  have hfq : findEndQuote (encHeader ++ List.replicate k 'a') ((14 : Int).toNat) = none :=
    findEndQuote_none (noQuote_header_rep k)
  rw [hfq]
  have hdrop : (encHeader ++ List.replicate k 'a').drop ((14 : Int).toNat) =
      List.replicate k 'a' := by
    rw [show ((14 : Int).toNat) = encHeader.length from rfl, List.drop_left]
  rw [hdrop]

theorem consume_unclosed_first (n : Nat) (hn : 1 ≤ n) :
    consumeChunk initState (encHeader ++ List.replicate n 'a') =
      (⟨encHeader ++ List.replicate n 'a', true, 14, List.replicate n 'a'⟩,
       [SEvent.delta (List.replicate n 'a')], true) := by
  have hbuf : initState.buf ++ (encHeader ++ List.replicate n 'a') =
      encHeader ++ List.replicate n 'a' := List.nil_append _
  have hms : markerScan initState (encHeader ++ List.replicate n 'a') = (true, 14) := by
    rw [markerScan, if_neg (by simp [initState]), if_neg (by simp [initState])]
    rw [indexOfFrom_marker_header]
    norm_num
  have hsv : stepValue initState (encHeader ++ List.replicate n 'a') =
      List.replicate n 'a' := by
    rw [stepValue]
    simp only [hbuf, hms]
    rw [if_pos trivial]
    rw [valueScan_unclosed n]
  have hsa : stateAfter initState (encHeader ++ List.replicate n 'a') =
      ⟨encHeader ++ List.replicate n 'a', true, 14, List.replicate n 'a'⟩ := by
    rw [stateAfter]
    simp only [hbuf, hms]
    rw [if_pos trivial]
    rw [valueScan_unclosed n]
    rw [sentAfter]
    rw [if_pos (by simp [initState, List.length_replicate]; omega)]
  have hdo : deltaOf initState.sent (stepValue initState (encHeader ++ List.replicate n 'a')) =
      [SEvent.delta (List.replicate n 'a')] := by
    rw [hsv, deltaOf]
    rw [if_pos (by simp [initState, List.length_replicate]; omega)]
    simp [initState]
  have hcr : completionReady (initState.buf ++ (encHeader ++ List.replicate n 'a')) = false := by
    rw [hbuf]
    exact completionReady_unclosed n
  rw [consumeChunk, hdo, hsa]
  rw [finishEvents, finishAlive, hcr]
  simp

theorem consume_unclosed_next (n m : Nat) (hn : 1 ≤ n) (hm : 1 ≤ m) :
    consumeChunk ⟨encHeader ++ List.replicate n 'a', true, 14, List.replicate n 'a'⟩
      (List.replicate m 'a') =
      (⟨encHeader ++ List.replicate (n + m) 'a', true, 14, List.replicate (n + m) 'a'⟩,
       [SEvent.delta (List.replicate m 'a')], true) := by
  have hbuf : (encHeader ++ List.replicate n 'a') ++ List.replicate m 'a' =
      encHeader ++ List.replicate (n + m) 'a' := by
    rw [List.append_assoc, ← List.replicate_add]
  set st : DecState := ⟨encHeader ++ List.replicate n 'a', true, 14, List.replicate n 'a'⟩
    with hst
  have hms : markerScan st (st.buf ++ List.replicate m 'a') = (true, 14) := by
    rw [markerScan, if_pos rfl]
  have hbuf2 : st.buf ++ List.replicate m 'a' = encHeader ++ List.replicate (n + m) 'a' := hbuf
  have hsv : stepValue st (List.replicate m 'a') = List.replicate (n + m) 'a' := by
    rw [stepValue]
    simp only [hms]
    rw [if_pos trivial]
    rw [show st.buf ++ List.replicate m 'a' =
          encHeader ++ List.replicate n 'a' ++ List.replicate m 'a' from rfl] at *
    rw [hbuf, valueScan_unclosed (n + m)]
  have hsa : stateAfter st (List.replicate m 'a') =
      ⟨encHeader ++ List.replicate (n + m) 'a', true, 14, List.replicate (n + m) 'a'⟩ := by
    rw [stateAfter]
    simp only [hms]
    rw [if_pos trivial]
    rw [show st.buf ++ List.replicate m 'a' =
          encHeader ++ List.replicate n 'a' ++ List.replicate m 'a' from rfl] at *
    rw [hbuf, valueScan_unclosed (n + m)]
    rw [sentAfter, if_pos (by simp [hst, List.length_replicate]; omega)]
  have hdo : deltaOf st.sent (stepValue st (List.replicate m 'a')) =
      [SEvent.delta (List.replicate m 'a')] := by
    rw [hsv, deltaOf, if_pos (by simp [hst, List.length_replicate]; omega)]
    have : (List.replicate (n + m) 'a').drop st.sent.length = List.replicate m 'a' := by
      rw [show st.sent = List.replicate n 'a' from rfl, List.length_replicate]
      rw [List.drop_replicate]
      congr 1
      omega
    rw [this]
  have hcr : completionReady (st.buf ++ List.replicate m 'a') = false := by
    rw [hbuf2]
    exact completionReady_unclosed (n + m)
  rw [consumeChunk, hdo, hsa, finishEvents, finishAlive, hcr]
  simp [hbuf2]

/-- The never-closing family: header then `n` plain characters, then `m` more;
the decoder streams both runs as deltas and, at end-of-stream, raises the
unterminated-value error — never the max-length error, however large `n + m`
is, because the completion check never passes so the parse and the length
ceiling are never consulted. -/
theorem unclosedValueRun (n m : Nat) (hn : 1 ≤ n) (hm : 1 ≤ m) :
    processStream [encHeader ++ List.replicate n 'a', List.replicate m 'a'] =
      [SEvent.delta (List.replicate n 'a'), SEvent.delta (List.replicate m 'a'),
       SEvent.err msgUnterminated] := by
  rw [processStream, runChunks, consume_unclosed_first n hn]
  simp only
  rw [runChunks, consume_unclosed_next n m hn hm]
  simp only
  rw [runChunks]
  simp only
  rw [doneEvents, if_pos rfl]
  rfl

/-! ### The oversized-junk stream family -/

theorem skipWs_cons_not {c : Char} {l : List Char} (h : jsonWs c = false) :
    skipWs (c :: l) = c :: l := by
  rw [skipWs, List.dropWhile_cons, h]
  rfl

theorem junk_parse_none (n : Nat) (hn : 1 ≤ n) :
    jsonParse ('\x7b' :: '\x7d' :: List.replicate n 'x') = none := by
  have hskip : skipWs ('\x7b' :: '\x7d' :: List.replicate n 'x') =
      '\x7b' :: '\x7d' :: List.replicate n 'x' := skipWs_cons_not (by decide)
  have hlen : ('\x7b' :: '\x7d' :: List.replicate n 'x').length = n + 2 := by
    simp [List.length_replicate]
  rw [jsonParse, hskip, hlen]
  rw [parseValue]
  have hskip2 : skipWs ('\x7d' :: List.replicate n 'x') = '\x7d' :: List.replicate n 'x' :=
    skipWs_cons_not (by decide)
  rw [hskip2]
  simp only
  have hskip3 : skipWs (List.replicate n 'x') = List.replicate n 'x' := by
    cases n with
    | zero => rfl
    | succ k =>
      rw [List.replicate_succ]
      exact skipWs_cons_not (by decide)
  rw [hskip3]
  rw [if_neg (by cases n with
    | zero => omega
    | succ k => rw [List.replicate_succ]; simp)]

theorem junkOverflowRun (n : Nat) (hn : 1 ≤ n) (hlen : 50000 < n + 2) :
    processStream ['\x7b' :: '\x7d' :: List.replicate n 'x'] = [SEvent.err msgMaxLength] := by
  set buf : List Char := '\x7b' :: '\x7d' :: List.replicate n 'x' with hbufdef
  have hbuf : initState.buf ++ buf = buf := List.nil_append _
  have hq : '"' ∉ buf := by
    intro hm
    rw [hbufdef] at hm
    rcases List.mem_cons.1 hm with h | h
    · exact absurd h (by decide)
    rcases List.mem_cons.1 h with h2 | h2
    · exact absurd h2 (by decide)
    · exact absurd (List.eq_of_mem_replicate h2) (by decide)
  have hms : markerScan initState buf = (false, -1) := by
    rw [markerScan, if_neg (by simp [initState]), if_neg (by simp [initState])]
    rw [indexOfFrom_none_of_not_mem (by decide) hq]
    rfl
  have hsv : stepValue initState buf = [] := by
    rw [stepValue]
    simp only [hbuf, hms]
    simp [initState]
  have hsa : stateAfter initState buf = ⟨buf, false, -1, []⟩ := by
    rw [stateAfter]
    simp only [hbuf, hms]
    simp [initState]
  have hdo : deltaOf initState.sent (stepValue initState buf) = [] := by
    rw [hsv, deltaOf]
    simp [initState]
  have hscan : jsonScan buf = ⟨0, false, false⟩ := by
    rw [hbufdef, jsonScan, List.foldl_cons, List.foldl_cons]
    rw [show scanStep (scanStep ⟨0, false, false⟩ '\x7b') '\x7d' = ⟨0, false, false⟩ from rfl]
    exact scan_replicate_plain (by decide) (by decide) (by decide) (by decide) n 0 false
  have hcr : completionReady buf = true := by
    rw [completionReady, hscan]
    simp [hbufdef]
  have hjp : jsonParse buf = none := junk_parse_none n hn
  have hblen : 50000 < buf.length := by
    rw [hbufdef]
    simp only [List.length_cons, List.length_replicate]
    omega
  rw [processStream, runChunks, consumeChunk, hdo, hsa]
  rw [finishEvents, finishAlive, hbuf, hcr, hjp]
  simp only [if_pos hblen, if_pos trivial]
  simp [hblen]

/-! ### The escaping chain and its per-character form -/

theorem replaceAll_append (t : Char) (r a b : List Char) :
    replaceAll t r (a ++ b) = replaceAll t r a ++ replaceAll t r b := by
  rw [replaceAll, replaceAll, replaceAll, List.flatMap_append]

theorem escapeJSON_append (a b : List Char) :
    escapeJSON (a ++ b) = escapeJSON a ++ escapeJSON b := by
  rw [escapeJSON, escapeJSON, escapeJSON, List.flatMap_append]

/-- The handler's five sequential global replaces equal the per-character
escaping map: the later passes never touch characters introduced by the
earlier ones. -/
theorem jsEscape_eq_escapeJSON (l : List Char) : jsEscape l = escapeJSON l := by
  induction l with
  | nil => rfl
  | cons c l' ih =>
    have hstep : ∀ (t : Char) (r : List Char) (x : List Char) (xs : List Char),
        replaceAll t r (x ++ xs) = replaceAll t r x ++ replaceAll t r xs :=
      fun t r x xs => replaceAll_append t r x xs
    rw [show (c :: l') = [c] ++ l' from rfl]
    rw [jsEscape, hstep, hstep, hstep, hstep, hstep]
    rw [← jsEscape, ← jsEscape, ih]
    rw [escapeJSON_append]
    congr 1
    by_cases h1 : c = '\\'
    · subst h1
      rfl
    by_cases h2 : c = '"'
    · subst h2
      rfl
    by_cases h3 : c = '\n'
    · subst h3
      rfl
    by_cases h4 : c = '\r'
    · subst h4
      rfl
    by_cases h5 : c = '\t'
    · subst h5
      rfl
    show jsEscape [c] = escapeJSON [c]
    rw [jsEscape, escapeJSON]
    simp [replaceAll, escChar, h1, h2, h3, h4, h5]

theorem encodeStream_eq_wire (frags : List (List Char)) :
    encodeStream frags = wire frags.flatten := by
  rw [encodeStream, wire]
  congr 1
  congr 1
  induction frags with
  | nil => rfl
  | cons f fs ih =>
    rw [List.flatMap_cons, List.flatten_cons, escapeJSON_append, ih,
      jsEscape_eq_escapeJSON]

/-! ### Backslash runs inside escaped text -/

theorem bsCount_agree {X Y : List Char} {low : Nat} :
    ∀ {i : Nat}, (∀ j, j < i → X[j]? = Y[j]?) → bsCount X low i = bsCount Y low i
  | 0, _ => rfl
  | i + 1, h => by
    rw [bsCount, bsCount, h i (by omega)]
    split
    · rw [bsCount_agree (fun j hj => h j (by omega))]
    · rfl

theorem bsCount_append_left {X Y : List Char} {low i : Nat} (hi : i ≤ X.length) :
    bsCount (X ++ Y) low i = bsCount X low i :=
  bsCount_agree fun j hj => List.getElem?_append_left (by omega)

/-- Shifting a backslash count across a concrete prefix: counting in
`pre ++ X` from `pre.length + i` down to the bound `pre.length` equals
counting in `X` from `i` down to 0. -/
theorem bsCount_shift (pre X : List Char) :
    ∀ (i : Nat), bsCount (pre ++ X) pre.length (pre.length + i) = bsCount X 0 i
  | 0 => by
    rw [Nat.add_zero, bsCount.eq_def]
    split
    · rfl
    · rename_i p hp
      rw [if_neg (by omega)]
      rfl
  | i + 1 => by
    rw [show pre.length + (i + 1) = (pre.length + i) + 1 from rfl, bsCount, bsCount]
    have hget : (pre ++ X)[pre.length + i]? = X[i]? := by
      rw [List.getElem?_append_right (by omega)]
      congr 1
      omega
    rw [hget]
    split
    · rename_i h
      rw [bsCount_shift pre X i, if_pos ⟨Nat.zero_le i, h.2⟩]
    · rename_i h
      rw [if_neg (by intro h2; exact h ⟨by omega, h2.2⟩)]

theorem bsCount_last_not_bs {buf : List Char} {low p : Nat} {c : Char}
    (h : buf[p]? = some c) (hc : ¬ c = '\\') : bsCount buf low (p + 1) = 0 := by
  rw [bsCount, if_neg (by
    intro h2
    rw [h] at h2
    exact hc (Option.some.inj h2.2))]

theorem bsCount_last_bs {buf : List Char} {low p : Nat}
    (h : buf[p]? = some '\\') (hl : low ≤ p) :
    bsCount buf low (p + 1) = bsCount buf low p + 1 := by
  rw [bsCount, if_pos ⟨hl, h⟩]

/-- The two structural facts about escaped text: every quote in it is
preceded by an odd run of backslashes (it is escaped), and its trailing run
of backslashes is even. -/
theorem escape_invariant (s : List Char) :
    (∀ i, (escapeJSON s)[i]? = some '"' →
      bsCount (escapeJSON s) 0 i % 2 = 1) ∧
    bsCount (escapeJSON s) 0 (escapeJSON s).length % 2 = 0 := by
  induction s using List.reverseRecOn with
  | nil => exact ⟨fun i h => by simp [escapeJSON] at h, rfl⟩
  | append_singleton s' c ih =>
    rw [escapeJSON_append]
    obtain ⟨ihq, ihr⟩ := ih
    have hunit : escapeJSON [c] = escChar c := by
      rw [escapeJSON]
      simp
    rw [hunit]
    set E' := escapeJSON s' with hE'
    set u := escChar c with hu
    have hagree : ∀ j, j < E'.length → (E' ++ u)[j]? = E'[j]? :=
      fun j hj => List.getElem?_append_left hj
    have hkeep : ∀ i, i ≤ E'.length →
        bsCount (E' ++ u) 0 i = bsCount E' 0 i :=
      fun i hi => bsCount_agree (fun j hj => hagree j (by omega))
    have hold : ∀ i, (E' ++ u)[i]? = some '"' → i < E'.length →
        bsCount (E' ++ u) 0 i % 2 = 1 := by
      intro i hq hi
      rw [hkeep i (by omega)]
      exact ihq i (by rw [← hagree i hi]; exact hq)
    have hlen : (E' ++ u).length = E'.length + u.length := List.length_append E' u
    have hgetu : ∀ k, (E' ++ u)[E'.length + k]? = u[k]? := by
      intro k
      rw [List.getElem?_append_right (by omega)]
      congr 1
      omega
    have htrail0 : ∀ {d : Char}, u = ['\\', d] → ¬ d = '\\' →
        bsCount (E' ++ u) 0 (E' ++ u).length % 2 = 0 := by
      intro d hud hd
      rw [hlen]
      have hdget : (E' ++ u)[E'.length + 1]? = some d := by
        rw [hgetu 1, hud]
        rfl
      have hul : E'.length + u.length = (E'.length + 1) + 1 := by
        rw [hud]
        simp
      rw [hul, bsCount_last_not_bs hdget hd]
    have hsingle : ∀ (hcc : u = [c]) (hc : ¬ c = '\\') (hq : ¬ c = '"'),
        (∀ i, (E' ++ u)[i]? = some '"' → bsCount (E' ++ u) 0 i % 2 = 1) ∧
        bsCount (E' ++ u) 0 (E' ++ u).length % 2 = 0 := by
      intro hcc hc hq
      constructor
      · intro i hqi
        rcases lt_or_ge i E'.length with hi | hi
        · exact hold i hqi hi
        · exfalso
          have hk : i - E'.length < u.length := by
            by_contra hge
            rw [show i = E'.length + (i - E'.length) from by omega, hgetu] at hqi
            rw [List.getElem?_eq_none (by omega)] at hqi
            exact absurd hqi (by simp)
          rw [hcc] at hk
          have : i = E'.length := by
            simp at hk
            omega
          subst this
          rw [show E'.length = E'.length + 0 from rfl, hgetu 0, hcc] at hqi
          exact hq (Option.some.inj hqi)
      · have hcget : (E' ++ u)[E'.length + 0]? = some c := by
          rw [hgetu 0, hcc]
          rfl
        have hlenu : (E' ++ u).length = (E'.length + 0) + 1 := by
          rw [hlen, hcc]
          simp
        rw [hlenu, bsCount_last_not_bs hcget hc]
    have hnoq2 : ∀ (d : Char) (hud : u = ['\\', d]) (hd : ¬ d = '"'),
        ∀ i, (E' ++ u)[i]? = some '"' → bsCount (E' ++ u) 0 i % 2 = 1 := by
      intro d hud hd i hqi
      rcases lt_or_ge i E'.length with hi | hi
      · exact hold i hqi hi
      · exfalso
        have hk : i - E'.length < u.length := by
          by_contra hge
          rw [show i = E'.length + (i - E'.length) from by omega, hgetu] at hqi
          rw [List.getElem?_eq_none (by omega)] at hqi
          exact absurd hqi (by simp)
        rw [hud] at hk
        simp at hk
        interval_cases hik : (i - E'.length)
        · rw [show i = E'.length + 0 from by omega, hgetu 0, hud,
            show (['\\', d] : List Char)[0]? = some '\\' from rfl] at hqi
          exact absurd (Option.some.inj hqi) (by decide)
        · rw [show i = E'.length + 1 from by omega, hgetu 1, hud,
            show (['\\', d] : List Char)[1]? = some d from rfl] at hqi
          exact hd (Option.some.inj hqi)
    by_cases h1 : c = '\\'
    · subst h1
      have hud : u = ['\\', '\\'] := rfl
      refine ⟨hnoq2 '\\' hud (by decide), ?_⟩
      have hb0 : (E' ++ u)[E'.length + 0]? = some '\\' := by
        rw [hgetu 0, hud]
        rfl
      have hb1 : (E' ++ u)[E'.length + 1]? = some '\\' := by
        rw [hgetu 1, hud]
        rfl
      have hul : (E' ++ u).length = (E'.length + 1) + 1 := by
        rw [hlen, hud]
        simp
      rw [hul, bsCount_last_bs hb1 (by omega)]
      rw [show E'.length + 1 = (E'.length + 0) + 1 from rfl]
      rw [bsCount_last_bs hb0 (by omega)]
      have hagain : bsCount (E' ++ u) 0 (E'.length + 0) = bsCount E' 0 E'.length := by
        rw [show E'.length + 0 = E'.length from rfl]
        exact hkeep E'.length (le_refl _)
      rw [hagain]
      omega
    by_cases h2 : c = '"'
    · subst h2
      have hud : u = ['\\', '"'] := rfl
      constructor
      · intro i hqi
        rcases lt_or_ge i E'.length with hi | hi
        · exact hold i hqi hi
        · have hk : i - E'.length < u.length := by
            by_contra hge
            rw [show i = E'.length + (i - E'.length) from by omega, hgetu] at hqi
            rw [List.getElem?_eq_none (by omega)] at hqi
            exact absurd hqi (by simp)
          rw [hud] at hk
          simp at hk
          interval_cases hik : (i - E'.length)
          · exfalso
            rw [show i = E'.length + 0 from by omega, hgetu 0, hud] at hqi
            exact absurd (Option.some.inj hqi) (by decide)
          · have hieq : i = E'.length + 1 := by omega
            subst hieq
            have hb0 : (E' ++ u)[E'.length + 0]? = some '\\' := by
              rw [hgetu 0, hud]
              rfl
            rw [show E'.length + 1 = (E'.length + 0) + 1 from rfl]
            rw [bsCount_last_bs hb0 (by omega)]
            have hagain : bsCount (E' ++ u) 0 (E'.length + 0) = bsCount E' 0 E'.length := by
              rw [show E'.length + 0 = E'.length from rfl]
              exact hkeep E'.length (le_refl _)
            rw [hagain]
            omega
      · exact htrail0 (d := '"') hud (by decide)
    by_cases h3 : c = '\n'
    · subst h3
      exact ⟨hnoq2 'n' rfl (by decide), htrail0 (d := 'n') rfl (by decide)⟩
    by_cases h4 : c = '\r'
    · subst h4
      exact ⟨hnoq2 'r' rfl (by decide), htrail0 (d := 'r') rfl (by decide)⟩
    by_cases h5 : c = '\t'
    · subst h5
      exact ⟨hnoq2 't' rfl (by decide), htrail0 (d := 't') rfl (by decide)⟩
    have hcc : u = [c] := by
      rw [hu, escChar, if_neg h1, if_neg h2, if_neg h3, if_neg h4, if_neg h5]
    exact hsingle hcc h1 h2

/-! ### The value scan over wire-shaped buffers -/

theorem quotesEscaped_take {E : List Char} (k : Nat)
    (hE : ∀ i, E[i]? = some '"' → bsCount E 0 i % 2 = 1) :
    ∀ i, (E.take k)[i]? = some '"' → bsCount (E.take k) 0 i % 2 = 1 := by
  intro i hq
  have hik : i < k := by
    by_contra hge
    rw [List.getElem?_take_eq_none (by omega)] at hq
    exact absurd hq (by simp)
  have hagree : ∀ j, j < i → (E.take k)[j]? = E[j]? :=
    fun j hj => List.getElem?_take_of_lt (by omega)
  rw [bsCount_agree hagree]
  exact hE i (by rw [← List.getElem?_take_of_lt hik]; exact hq)

/-- In a buffer `encHeader ++ V` where every quote of `V` is escaped, the
value scan from 14 finds no terminator. -/
theorem findEndQuote_escaped_none {V : List Char}
    (hV : ∀ i, V[i]? = some '"' → bsCount V 0 i % 2 = 1) :
    findEndQuote (encHeader ++ V) 14 = none := by
  cases hq : findEndQuote (encHeader ++ V) 14 with
  | none => rfl
  | some q =>
    exfalso
    obtain ⟨h1, h2, h3, _⟩ := findEndAux_some hq
    have hqlen : q < (encHeader ++ V).length := by
      rcases lt_or_ge q (encHeader ++ V).length with h | h
      · exact h
      · rw [List.getElem?_eq_none h] at h2
        exact absurd h2 (by simp)
    have hi : q - 14 < V.length := by
      rw [List.length_append, encHeader_len] at hqlen
      omega
    have hqv : V[q - 14]? = some '"' := by
      rw [← h2, List.getElem?_append_right (by rw [encHeader_len]; omega), encHeader_len]
    have hshift0 : ∀ i, bsCount (encHeader ++ V) 14 (14 + i) = bsCount V 0 i := by
      intro i
      have h := bsCount_shift encHeader V i
      rw [encHeader_len] at h
      exact h
    have hshift : bsCount (encHeader ++ V) 14 q = bsCount V 0 (q - 14) := by
      conv_lhs => rw [show q = 14 + (q - 14) from by omega]
      exact hshift0 (q - 14)
    rw [hshift] at h3
    have := hV (q - 14) hqv
    omega

/-- In a buffer `encHeader ++ E ++ '"' :: T` where every quote of `E` is
escaped and `E`\'s trailing backslash run is even, the value scan finds
exactly the closing quote at position `14 + E.length`. -/
theorem findEndQuote_closing {E T : List Char}
    (hE : ∀ i, E[i]? = some '"' → bsCount E 0 i % 2 = 1)
    (hEr : bsCount E 0 E.length % 2 = 0) :
    findEndQuote (encHeader ++ (E ++ '"' :: T)) 14 = some (14 + E.length) := by
  set V := E ++ '"' :: T with hV
  have hagreeE : ∀ j, j < E.length → V[j]? = E[j]? :=
    fun j hj => List.getElem?_append_left hj
  have hshift : ∀ i, bsCount (encHeader ++ V) 14 (14 + i) = bsCount V 0 i := by
    intro i
    have h := bsCount_shift encHeader V i
    rw [encHeader_len] at h
    exact h
  have hgetV : ∀ i, i < V.length → (encHeader ++ V)[14 + i]? = V[i]? := by
    intro i hi
    rw [List.getElem?_append_right (by rw [encHeader_len]; omega), encHeader_len]
    congr 1
    omega
  have hVlen : E.length < V.length := by
    rw [hV, List.length_append]
    simp
  apply findEndQuote_iff.mpr
  refine ⟨by omega, ?_, ?_, ?_⟩
  · rw [hgetV E.length hVlen, hV, List.getElem?_append_right (le_refl _)]
    simp
  · rw [hshift E.length, bsCount_agree (fun j hj => hagreeE j hj)]
    exact hEr
  · intro j hj1 hj2 hj3
    have hjE : j - 14 < E.length := by omega
    have hq : E[j - 14]? = some '"' := by
      rw [← hagreeE (j - 14) hjE, ← hgetV (j - 14) (by omega)]
      rw [show 14 + (j - 14) = j from by omega]
      exact hj3
    rw [show j = 14 + (j - 14) from by omega, hshift (j - 14)]
    rw [bsCount_agree (fun j2 hj2 => hagreeE j2 (by omega))]
    exact hE (j - 14) hq

/-! ### The completion scan over escaped value text -/

/-- Scanning escaped string content from inside a string keeps the scan
inside the string; the final escaped flag is the parity of the trailing
backslash run. -/
theorem scan_escaped : ∀ {V : List Char},
    (∀ i, V[i]? = some '"' → bsCount V 0 i % 2 = 1) → ∀ (d : Int),
    List.foldl scanStep ⟨d, true, false⟩ V =
      ⟨d, true, decide (bsCount V 0 V.length % 2 = 1)⟩ := by
  intro V
  induction V using List.reverseRecOn with
  | nil => intro _ d; rfl
  | append_singleton V' c ih =>
    intro hV d
    have hagree : ∀ j, j < V'.length → (V' ++ [c])[j]? = V'[j]? :=
      fun j hj => List.getElem?_append_left hj
    have hV' : ∀ i, V'[i]? = some '"' → bsCount V' 0 i % 2 = 1 := by
      intro i hq
      have hilen : i < V'.length := by
        rcases lt_or_ge i V'.length with h | h
        · exact h
        · rw [List.getElem?_eq_none h] at hq
          exact absurd hq (by simp)
      have := hV i (by rw [hagree i hilen]; exact hq)
      rw [bsCount_agree (fun j hj => (hagree j (by omega)).symm)]
      exact this
    have hkeep : ∀ i, i ≤ V'.length → bsCount (V' ++ [c]) 0 i = bsCount V' 0 i :=
      fun i hi => bsCount_agree (fun j hj => hagree j (by omega))
    have hgetc : (V' ++ [c])[V'.length]? = some c := by
      rw [List.getElem?_append_right (le_refl _)]
      simp
    rw [List.foldl_append, ih hV' d, List.foldl_cons, List.foldl_nil]
    have hlen1 : (V' ++ [c]).length = V'.length + 1 := by simp
    by_cases hc : c = '"'
    · subst hc
      have hodd := hV V'.length hgetc
      rw [hkeep V'.length (le_refl _)] at hodd
      have hesc : decide (bsCount V' 0 V'.length % 2 = 1) = true := by
        simp [hodd]
      rw [scanStep, hesc]
      simp only [Bool.not_true, Bool.and_false, if_false]
      rw [hlen1, bsCount_last_not_bs hgetc (by decide)]
      simp
    by_cases hb : c = '\\'
    · subst hb
      rw [scanStep]
      simp only [show (('\\' : Char) == '"') = false from by decide, Bool.false_and,
        if_false, show (('\\' : Char) == '\\') = true from by decide, Bool.true_and]
      rw [hlen1, bsCount_last_bs hgetc (by omega), hkeep V'.length (le_refl _)]
      congr 1
      rcases Nat.mod_two_eq_zero_or_one (bsCount V' 0 V'.length) with h | h <;>
        simp [h, Nat.add_mod]
    · rw [scanStep]
      simp only [show ((c == '"') : Bool) = false from by simp [hc], Bool.false_and,
        if_false, show ((c == '\\') : Bool) = false from by simp [hb], Bool.false_and]
      rw [hlen1, bsCount_last_not_bs hgetc hb]
      simp

/-! ### Parsing the wire object: `jsonParse (wire s) = some (objNull s)` -/

theorem parseStringBody_plain {c : Char} {X : List Char} (h1 : ¬ c = '"')
    (h2 : ¬ c = '\\') (h3 : ¬ c.toNat < 32) :
    parseStringBody (c :: X) =
    (match parseStringBody X with
     | some (s, r) => some (c :: s, r)
     | none => none) := by
  rw [parseStringBody.eq_def]
  split
  · rename_i heq
    injection heq with he _
    exact absurd he h1
  · rename_i heq
    injection heq with he _
    exact absurd he h2
  · rename_i heq
    injection heq with he _
    exact absurd he h2
  · rename_i c2 rest heq
    injection heq with he hr
    subst he
    subst hr
    rw [if_neg h3]
  · rename_i heq
    exact absurd heq (by simp)

theorem parseStringBody_escape : ∀ (s : List Char), (∀ c ∈ s, safeChar c = true) →
    ∀ (T : List Char), parseStringBody (escapeJSON s ++ '"' :: T) = some (s, T)
  | [], _, T => rfl
  | c :: s', hs, T => by
    have hs' : ∀ x ∈ s', safeChar x = true := fun x hx => hs x (List.mem_cons_of_mem c hx)
    have ih := parseStringBody_escape s' hs' T
    have hsplit : escapeJSON (c :: s') ++ '"' :: T = escChar c ++ (escapeJSON s' ++ '"' :: T) := by
      rw [show escapeJSON (c :: s') = escChar c ++ escapeJSON s' from by
            rw [escapeJSON, escapeJSON, List.flatMap_cons],
          List.append_assoc]
    rw [hsplit]
    by_cases h1 : c = '\\'
    · subst h1
      rw [show escChar '\\' = ['\\', '\\'] from rfl]
      rw [show (['\\', '\\'] : List Char) ++ (escapeJSON s' ++ '"' :: T) =
        '\\' :: '\\' :: (escapeJSON s' ++ '"' :: T) from rfl]
      rw [show parseStringBody ('\\' :: '\\' :: (escapeJSON s' ++ '"' :: T)) =
          (match parseStringBody (escapeJSON s' ++ '"' :: T) with
           | some (s, r) => some ('\\' :: s, r)
           | none => none) from rfl, ih]
    by_cases h2 : c = '"'
    · subst h2
      rw [show escChar '"' = ['\\', '"'] from rfl]
      rw [show (['\\', '"'] : List Char) ++ (escapeJSON s' ++ '"' :: T) =
        '\\' :: '"' :: (escapeJSON s' ++ '"' :: T) from rfl]
      rw [show parseStringBody ('\\' :: '"' :: (escapeJSON s' ++ '"' :: T)) =
          (match parseStringBody (escapeJSON s' ++ '"' :: T) with
           | some (s, r) => some ('"' :: s, r)
           | none => none) from rfl, ih]
    by_cases h3 : c = '\n'
    · subst h3
      rw [show escChar '\n' = ['\\', 'n'] from rfl]
      rw [show (['\\', 'n'] : List Char) ++ (escapeJSON s' ++ '"' :: T) =
        '\\' :: 'n' :: (escapeJSON s' ++ '"' :: T) from rfl]
      rw [show parseStringBody ('\\' :: 'n' :: (escapeJSON s' ++ '"' :: T)) =
          (match parseStringBody (escapeJSON s' ++ '"' :: T) with
           | some (s, r) => some ('\n' :: s, r)
           | none => none) from rfl, ih]
    by_cases h4 : c = '\r'
    · subst h4
      rw [show escChar '\r' = ['\\', 'r'] from rfl]
      rw [show (['\\', 'r'] : List Char) ++ (escapeJSON s' ++ '"' :: T) =
        '\\' :: 'r' :: (escapeJSON s' ++ '"' :: T) from rfl]
      rw [show parseStringBody ('\\' :: 'r' :: (escapeJSON s' ++ '"' :: T)) =
          (match parseStringBody (escapeJSON s' ++ '"' :: T) with
           | some (s, r) => some ('\r' :: s, r)
           | none => none) from rfl, ih]
    by_cases h5 : c = '\t'
    · subst h5
      rw [show escChar '\t' = ['\\', 't'] from rfl]
      rw [show (['\\', 't'] : List Char) ++ (escapeJSON s' ++ '"' :: T) =
        '\\' :: 't' :: (escapeJSON s' ++ '"' :: T) from rfl]
      rw [show parseStringBody ('\\' :: 't' :: (escapeJSON s' ++ '"' :: T)) =
          (match parseStringBody (escapeJSON s' ++ '"' :: T) with
           | some (s, r) => some ('\t' :: s, r)
           | none => none) from rfl, ih]
    · have hc32 : ¬ c.toNat < 32 := by
        have hsc := hs c (List.mem_cons_self c s')
        rw [safeChar] at hsc
        simp only [Bool.or_eq_true, decide_eq_true_eq, beq_iff_eq] at hsc
        intro hlt
        rcases hsc with ((h | h) | h) | h
        · omega
        · exact h3 h
        · exact h4 h
        · exact h5 h
      rw [show escChar c = [c] from by
        rw [escChar, if_neg h1, if_neg h2, if_neg h3, if_neg h4, if_neg h5]]
      rw [show ([c] : List Char) ++ (escapeJSON s' ++ '"' :: T) =
        c :: (escapeJSON s' ++ '"' :: T) from rfl]
      rw [parseStringBody_plain h2 h1 hc32, ih]

theorem tRest_def : encTail = '"' :: ", \"currentCategory\": null, \"currentWord\": null, \"currentWordProgress\": null, \"exercises\": null\x7d".toList := rfl

theorem parseValue_wire_core (f : Nat) (E s : List Char)
    (hE : parseStringBody (E ++ encTail) =
      some (s, ", \"currentCategory\": null, \"currentWord\": null, \"currentWordProgress\": null, \"exercises\": null\x7d".toList)) :
    parseValue (f + 2) ('\x7b' :: (respMarker ++ (E ++ encTail))) = some (objNull s, []) := by
  conv_lhs => whnf
  rw [show skipWs ([' ', '"'].append (E ++ encTail)) = '"' :: (E ++ encTail) from rfl]
  rw [show parseValue (f + 1) ('"' :: (E ++ encTail)) =
    (match parseStringBody (E ++ encTail) with
     | some (s1, r1) => some (Json.str s1, r1)
     | none => none) from rfl]
  rw [hE]
  conv_lhs => whnf
  simp [objNull]

theorem jsonParse_wire (s : List Char) (hs : ∀ c ∈ s, safeChar c = true) :
    jsonParse (wire s) = some (objNull s) := by
  have hw : wire s = '\x7b' :: (respMarker ++ (escapeJSON s ++ encTail)) := rfl
  have hE : parseStringBody (escapeJSON s ++ encTail) =
      some (s, ", \"currentCategory\": null, \"currentWord\": null, \"currentWordProgress\": null, \"exercises\": null\x7d".toList) := by
    rw [tRest_def]
    exact parseStringBody_escape s hs _
  obtain ⟨f, hf⟩ : ∃ f, (wire s).length + 1 = f + 2 := by
    refine ⟨(wire s).length - 1, ?_⟩
    have h1 : 1 ≤ (wire s).length := by
      rw [hw]; simp
    omega
  rw [jsonParse, hf]
  rw [show skipWs (wire s) = wire s from rfl]
  rw [hw, parseValue_wire_core f (escapeJSON s) s hE]
  rfl

/-! ### The C1 run invariant: consuming any partition of a wire object -/


theorem encTail_len : encTail.length = 96 := rfl

theorem encTail_scan_full :
    List.foldl scanStep ⟨1, true, false⟩ encTail = ⟨0, false, false⟩ := rfl

theorem encTail_scan_mid : ∀ j, j < 96 →
    ((List.foldl scanStep ⟨1, true, false⟩ (encTail.take j)).lvl ≠ 0 ∨
     (List.foldl scanStep ⟨1, true, false⟩ (encTail.take j)).inStr = true) := by
  decide

theorem encTail_no_marker : ∀ m, m < 97 →
    respMarker.isPrefixOf (encTail.drop (m + 1)) = false := by
  decide

theorem encHeader_take_not_ready : ∀ q, q < 14 →
    completionReady (encHeader.take q) = false := by
  decide

theorem jsonScan_encHeader : jsonScan encHeader = ⟨1, true, false⟩ := rfl

theorem indexOfAux_none {s pat : List Char} :
    ∀ (f i : Nat), (∀ j, i ≤ j → j + pat.length ≤ s.length →
      pat.isPrefixOf (s.drop j) = false) →
    indexOfAux s pat f i = none
  | 0, i, h => rfl
  | f + 1, i, h => by
    rw [indexOfAux]
    split
    · rename_i hl
      rw [h i le_rfl hl]
      simp only [Bool.false_eq_true, if_false]
      exact indexOfAux_none f (i + 1) (fun j hj hl2 => h j (by omega) hl2)
    · rfl

theorem isPrefixOf_of_take {pat l : List Char} {k : Nat}
    (h : pat.isPrefixOf (l.take k) = true) : pat.isPrefixOf l = true := by
  rw [List.isPrefixOf_iff_prefix] at *
  exact h.trans (List.take_prefix k l)

theorem take_append_full (A B : List Char) (k : Nat) :
    (A ++ B).take (A.length + k) = A ++ B.take k := by
  rw [List.take_append_eq_append_take]
  congr 1
  · exact List.take_of_length_le (by omega)
  · congr 1
    omega

theorem drop_append_full (A B : List Char) (k : Nat) :
    (A ++ B).drop (A.length + k) = B.drop k := by
  rw [List.drop_append_eq_append_drop]
  rw [List.drop_eq_nil_of_le (by omega), List.nil_append]
  congr 1
  omega

theorem indexOfFrom_tail_none (E : List Char) (j : Nat) (hj : j ≤ 96) :
    indexOfFrom (encHeader ++ (E ++ encTail.take j)) respMarker (15 + E.length) = none := by
  apply indexOfAux_none
  intro i hi hlen
  have hslen : (encHeader ++ (E ++ encTail.take j)).length = 14 + E.length + j := by
    simp [encHeader_len, List.length_take, encTail_len]
    omega
  have hpatlen : respMarker.length = 13 := rfl
  rw [hpatlen] at hlen
  rw [hslen] at hlen
  set m := i - 14 - E.length with hm
  have him : i = (encHeader ++ E).length + m := by
    have : (encHeader ++ E).length = 14 + E.length := by simp [encHeader_len]
    omega
  have hdrop : (encHeader ++ (E ++ encTail.take j)).drop i = (encTail.take j).drop m := by
    rw [← List.append_assoc, him, drop_append_full]
  rw [hdrop]
  have hdt : (encTail.take j).drop m = (encTail.drop m).take (j - m) := by
    rw [List.drop_take]
  rw [hdt]
  rw [Bool.eq_false_iff]
  intro hc
  have h2 : respMarker.isPrefixOf (encTail.drop m) = true := isPrefixOf_of_take hc
  have hm1 : 1 ≤ m := by omega
  have hm97 : m - 1 < 97 := by omega
  have := encTail_no_marker (m - 1) hm97
  rw [show m - 1 + 1 = m from by omega] at this
  rw [this] at h2
  exact absurd h2 (by simp)

theorem escape_prefix_quotes (s : List Char) (k : Nat) :
    ∀ i, ((escapeJSON s).take k)[i]? = some '"' →
      bsCount ((escapeJSON s).take k) 0 i % 2 = 1 := by
  intro i hq
  have hik : i < k := by
    by_contra hik
    rw [List.getElem?_eq_none (by rw [List.length_take]; omega)] at hq
    exact absurd hq (by simp)
  have hfull : (escapeJSON s)[i]? = some '"' := by
    rw [← List.getElem?_take_of_lt hik]
    exact hq
  have hodd := (escape_invariant s).1 i hfull
  rw [bsCount_agree (fun j hj => List.getElem?_take_of_lt (by omega))]
  exact hodd

theorem jsonScan_header_val (V : List Char)
    (hV : ∀ i, V[i]? = some '"' → bsCount V 0 i % 2 = 1) :
    jsonScan (encHeader ++ V) =
      ⟨1, true, decide (bsCount V 0 V.length % 2 = 1)⟩ := by
  rw [jsonScan, List.foldl_append]
  rw [show List.foldl scanStep ⟨0, false, false⟩ encHeader = ⟨1, true, false⟩ from rfl]
  exact scan_escaped hV 1

theorem completionReady_header_val (V : List Char)
    (hV : ∀ i, V[i]? = some '"' → bsCount V 0 i % 2 = 1) :
    completionReady (encHeader ++ V) = false := by
  rw [completionReady, jsonScan_header_val V hV]
  simp

theorem completionReady_regC {E : List Char}
    (hq : ∀ i, E[i]? = some '"' → bsCount E 0 i % 2 = 1)
    (hr : bsCount E 0 E.length % 2 = 0)
    (j : Nat) (hj : j < 96) :
    completionReady (encHeader ++ (E ++ encTail.take j)) = false := by
  have hscan : jsonScan (encHeader ++ (E ++ encTail.take j)) =
      List.foldl scanStep ⟨1, true, false⟩ (encTail.take j) := by
    rw [jsonScan, ← List.append_assoc, List.foldl_append]
    have h1 : List.foldl scanStep ⟨0, false, false⟩ (encHeader ++ E) = ⟨1, true, false⟩ := by
      have := jsonScan_header_val E hq
      rw [jsonScan] at this
      rw [this]
      simp [hr]
    rw [h1]
  rcases encTail_scan_mid j hj with h | h
  · rw [completionReady, hscan]
    have h0 : ((List.foldl scanStep ⟨1, true, false⟩ (encTail.take j)).lvl == 0) = false := by
      simpa using h
    simp [h0]
  · rw [completionReady, hscan]
    simp [h]

theorem wire_len (s : List Char) :
    (wire s).length = 110 + (escapeJSON s).length := by
  rw [wire]
  simp [encHeader_len, encTail_len]
  omega

theorem completionReady_wire (s : List Char)
    (hq : ∀ i, (escapeJSON s)[i]? = some '"' → bsCount (escapeJSON s) 0 i % 2 = 1)
    (hr : bsCount (escapeJSON s) 0 (escapeJSON s).length % 2 = 0) :
    completionReady (wire s) = true := by
  have hscan : jsonScan (wire s) = ⟨0, false, false⟩ := by
    rw [wire, jsonScan, List.foldl_append]
    have h1 : List.foldl scanStep ⟨0, false, false⟩ (encHeader ++ escapeJSON s) =
        ⟨1, true, false⟩ := by
      have := jsonScan_header_val (escapeJSON s) hq
      rw [jsonScan] at this
      rw [this]
      simp [hr]
    rw [h1, encTail_scan_full]
  rw [completionReady, hscan]
  have hob : '\x7b' ∈ wire s := by
    rw [wire, encHeader_cons]
    simp
  have hcb : '\x7d' ∈ wire s := by
    have h1 : '\x7d' ∈ encTail := by decide
    rw [wire]
    simp
    tauto
  simp [hob, hcb]

theorem wire_take_A (s : List Char) (q : Nat) (hq : q ≤ 14) :
    (wire s).take q = encHeader.take q := by
  rw [wire, List.append_assoc, List.take_append_eq_append_take]
  rw [show q - encHeader.length = 0 from by rw [encHeader_len]; omega]
  simp

theorem wire_take_B (s : List Char) (k : Nat) (hk : k ≤ (escapeJSON s).length) :
    (wire s).take (14 + k) = encHeader ++ (escapeJSON s).take k := by
  rw [wire, List.append_assoc,
    show (14 : Nat) + k = encHeader.length + k from by rw [encHeader_len]]
  rw [take_append_full]
  congr 1
  rw [List.take_append_eq_append_take]
  rw [show k - (escapeJSON s).length = 0 from by omega]
  simp

theorem wire_take_C (s : List Char) (j : Nat) :
    (wire s).take (14 + (escapeJSON s).length + j) =
      encHeader ++ (escapeJSON s ++ encTail.take j) := by
  rw [wire, List.append_assoc, show (14 : Nat) + (escapeJSON s).length + j =
    encHeader.length + ((escapeJSON s).length + j) from by rw [encHeader_len]; omega]
  rw [take_append_full]
  congr 1
  rw [take_append_full]

def expState (s : List Char) (p : Nat) : DecState :=
  if p < 14 then ⟨(wire s).take p, false, -1, []⟩
  else if p ≤ 14 + (escapeJSON s).length then
    ⟨(wire s).take p, true, 14, (escapeJSON s).take (p - 14)⟩
  else ⟨(wire s).take p, false,
    ((14 + (escapeJSON s).length : Nat) : Int) + 1, escapeJSON s⟩

theorem expState_buf (s : List Char) (p : Nat) :
    (expState s p).buf = (wire s).take p := by
  rw [expState]
  split
  · rfl
  · split <;> rfl

theorem expState_sent (s : List Char) (p : Nat) :
    (expState s p).sent = (escapeJSON s).take (p - 14) := by
  rw [expState]
  split
  · rw [show p - 14 = 0 from by omega, List.take_zero]
  · split
    · rfl
    · show escapeJSON s = (escapeJSON s).take (p - 14)
      rw [List.take_of_length_le (by omega)]

theorem indexOf_encHeader_take_none : ∀ q, q < 14 →
    indexOfFrom (encHeader.take q) respMarker 0 = none := by
  decide

theorem sentAfter_take (l : List Char) (a b : Nat) (hab : a ≤ b) :
    sentAfter (l.take a) (l.take b) = l.take b := by
  rw [sentAfter]
  split
  · rfl
  · rename_i h
    have hlen : (l.take b).length = (l.take a).length := by
      have h1 : (l.take a).length ≤ (l.take b).length := by
        simp [List.length_take]
        omega
      omega
    have h2 : l.take a = (l.take b).take a := by
      rw [List.take_take, Nat.min_eq_left hab]
    rw [h2]
    exact List.IsPrefix.eq_of_length (List.take_prefix a (l.take b))
      (by rw [← h2]; omega)

theorem take_slice_tile (l : List Char) (a b : Nat) (hab : a ≤ b) :
    l.take a ++ (l.take b).drop (l.take a).length = l.take b := by
  have h1 : l.take a = (l.take b).take a := by
    rw [List.take_take, Nat.min_eq_left hab]
  rw [h1, List.length_take]
  rcases le_total a (l.take b).length with h | h
  · rw [Nat.min_eq_left h, List.take_append_drop]
  · rw [List.take_of_length_le h, Nat.min_eq_right h, List.drop_length, List.append_nil]

theorem take_eq_of_not_longer (l : List Char) (a b : Nat) (hab : a ≤ b)
    (h : ¬ (l.take b).length > (l.take a).length) : l.take a = l.take b := by
  have hlen : (l.take b).length = (l.take a).length := by
    have h1 : (l.take a).length ≤ (l.take b).length := by
      simp [List.length_take]
      omega
    omega
  have h2 : l.take a = (l.take b).take a := by
    rw [List.take_take, Nat.min_eq_left hab]
  rw [h2]
  exact List.IsPrefix.eq_of_length (List.take_prefix a (l.take b)) (by rw [← h2]; omega)

theorem drop14_header (X : List Char) : (encHeader ++ X).drop 14 = X := by
  rw [show (14 : Nat) = encHeader.length + 0 from rfl, drop_append_full, List.drop_zero]

theorem valueScan_B (s : List Char) (k : Nat) :
    valueScan (encHeader ++ (escapeJSON s).take k) 14 =
      ((escapeJSON s).take k, true, 14) := by
  rw [valueScan]
  rw [show ((14 : Int)).toNat = 14 from rfl]
  rw [findEndQuote_escaped_none (escape_prefix_quotes s k)]
  rw [drop14_header]

theorem valueScan_C (E tl : List Char)
    (hq : ∀ i, E[i]? = some '"' → bsCount E 0 i % 2 = 1)
    (hr : bsCount E 0 E.length % 2 = 0) :
    valueScan (encHeader ++ (E ++ '"' :: tl)) 14 =
      (E, false, ((14 + E.length : Nat) : Int) + 1) := by
  rw [valueScan]
  rw [show ((14 : Int)).toNat = 14 from rfl]
  rw [findEndQuote_closing hq hr]
  conv_lhs => whnf
  rw [show (encHeader ++ (E ++ '"' :: tl)).take (14 + E.length) = encHeader ++ E from by
    rw [show (14 : Nat) + E.length = encHeader.length + E.length from by rw [encHeader_len],
      take_append_full]
    congr 1
    exact List.take_left E ('"' :: tl)]
  rw [drop14_header]

theorem markerScan_A (s : List Char) (p : Nat) (hp : p < 14) (X : List Char) :
    markerScan (expState s p) (encHeader ++ X) = (true, 14) := by
  have h1 : (expState s p).insideValue = false := by rw [expState, if_pos hp]
  have h2 : (expState s p).startIdx = -1 := by rw [expState, if_pos hp]
  rw [markerScan, h1, h2]
  simp only [Bool.false_eq_true, if_false]
  rw [if_neg (by decide)]
  rw [indexOfFrom_marker_header X]
  rfl

theorem markerScan_A_none (s : List Char) (p q : Nat) (hp : p < 14) (hq : q < 14) :
    markerScan (expState s p) (encHeader.take q) = (false, -1) := by
  have h1 : (expState s p).insideValue = false := by rw [expState, if_pos hp]
  have h2 : (expState s p).startIdx = -1 := by rw [expState, if_pos hp]
  rw [markerScan, h1, h2]
  simp only [Bool.false_eq_true, if_false]
  rw [if_neg (by decide)]
  rw [indexOf_encHeader_take_none q hq]

theorem markerScan_B (s : List Char) (p : Nat) (hp1 : ¬ p < 14)
    (hp2 : p ≤ 14 + (escapeJSON s).length) (buf : List Char) :
    markerScan (expState s p) buf = (true, 14) := by
  have h1 : (expState s p).insideValue = true := by rw [expState, if_neg hp1, if_pos hp2]
  have h2 : (expState s p).startIdx = 14 := by rw [expState, if_neg hp1, if_pos hp2]
  rw [markerScan, h1, h2]
  simp

theorem markerScan_C (s : List Char) (p : Nat) (hp1 : ¬ p < 14)
    (hp2 : ¬ p ≤ 14 + (escapeJSON s).length) (j : Nat) (hj : j ≤ 96) :
    markerScan (expState s p) (encHeader ++ (escapeJSON s ++ encTail.take j)) =
      (false, ((14 + (escapeJSON s).length : Nat) : Int) + 1) := by
  have h1 : (expState s p).insideValue = false := by rw [expState, if_neg hp1, if_neg hp2]
  have h2 : (expState s p).startIdx = ((14 + (escapeJSON s).length : Nat) : Int) + 1 := by
    rw [expState, if_neg hp1, if_neg hp2]
  rw [markerScan, h1, h2]
  simp only [Bool.false_eq_true, if_false]
  rw [if_pos (by omega)]
  rw [show ((((14 + (escapeJSON s).length : Nat)) : Int) + 1).toNat =
    15 + (escapeJSON s).length from by omega]
  rw [indexOfFrom_tail_none (escapeJSON s) j hj]

theorem encTail_take_cons (j : Nat) (hj : 1 ≤ j) :
    encTail.take j = '"' ::
      (", \"currentCategory\": null, \"currentWord\": null, \"currentWordProgress\": null, \"exercises\": null\x7d".toList).take (j - 1) := by
  rw [show j = (j - 1) + 1 from by omega]
  rw [show encTail = '"' :: ", \"currentCategory\": null, \"currentWord\": null, \"currentWordProgress\": null, \"exercises\": null\x7d".toList from rfl]
  rw [List.take_succ_cons]
  congr 2

theorem step_buf (s : List Char) (p q : Nat) (hpq : p ≤ q) :
    (expState s p).buf ++ ((wire s).take q).drop p = (wire s).take q := by
  rw [expState_buf]
  rw [show (wire s).take p = ((wire s).take q).take p from by
    rw [List.take_take, Nat.min_eq_left hpq]]
  exact List.take_append_drop p _

theorem sentAfter_full (l : List Char) (a : Nat) : sentAfter (l.take a) l = l := by
  rw [sentAfter]
  split
  · rfl
  · rename_i h
    rw [List.length_take] at h
    exact List.take_of_length_le (by omega)

theorem step_state (s : List Char) (p q : Nat) (hpq : p < q)
    (hql : q ≤ (wire s).length) :
    stateAfter (expState s p) (((wire s).take q).drop p) = expState s q := by
  have hEq := (escape_invariant s).1
  have hEr := (escape_invariant s).2
  have hW := wire_len s
  simp only [stateAfter]
  rw [step_buf s p q (le_of_lt hpq)]
  by_cases hqA : q < 14
  · have hpA : p < 14 := by omega
    rw [wire_take_A s q (by omega), markerScan_A_none s p q hpA hqA]
    simp only [Bool.false_eq_true, if_false]
    rw [expState_sent, show p - 14 = 0 from by omega, List.take_zero]
    rw [expState, if_pos hqA, wire_take_A s q (by omega)]
  · by_cases hqB : q ≤ 14 + (escapeJSON s).length
    · -- q in region B
      have hbq : (wire s).take q = encHeader ++ (escapeJSON s).take (q - 14) := by
        have h := wire_take_B s (q - 14) (by omega)
        rw [show (14 : Nat) + (q - 14) = q from by omega] at h
        exact h
      rw [hbq]
      have hms : markerScan (expState s p) (encHeader ++ (escapeJSON s).take (q - 14)) =
          (true, 14) := by
        by_cases hpA : p < 14
        · exact markerScan_A s p hpA _
        · exact markerScan_B s p hpA (by omega) _
      rw [hms]
      simp only [if_true]
      rw [valueScan_B s (q - 14)]
      rw [expState_sent, sentAfter_take (escapeJSON s) (p - 14) (q - 14) (by omega)]
      rw [expState, if_neg (by omega), if_pos hqB, hbq]
    · -- q in region C
      have hj1 : 1 ≤ q - 14 - (escapeJSON s).length := by omega
      have hj96 : q - 14 - (escapeJSON s).length ≤ 96 := by omega
      have hcq : (wire s).take q =
          encHeader ++ (escapeJSON s ++ encTail.take (q - 14 - (escapeJSON s).length)) := by
        have h := wire_take_C s (q - 14 - (escapeJSON s).length)
        rw [show (14 : Nat) + (escapeJSON s).length + (q - 14 - (escapeJSON s).length) = q
          from by omega] at h
        exact h
      rw [hcq]
      by_cases hpC : p ≤ 14 + (escapeJSON s).length
      · -- p in region A or B: the value closes in this step
        have hms : markerScan (expState s p)
            (encHeader ++ (escapeJSON s ++ encTail.take (q - 14 - (escapeJSON s).length))) =
            (true, 14) := by
          by_cases hpA : p < 14
          · exact markerScan_A s p hpA _
          · exact markerScan_B s p hpA hpC _
        rw [hms]
        simp only [if_true]
        rw [encTail_take_cons _ hj1, valueScan_C (escapeJSON s) _ hEq hEr]
        rw [expState_sent, sentAfter_full (escapeJSON s) (p - 14)]
        rw [expState, if_neg (by omega), if_neg (by omega), hcq, encTail_take_cons _ hj1]
      · -- p already past the value: nothing changes
        rw [markerScan_C s p (by omega) (by omega) _ hj96]
        simp only [Bool.false_eq_true, if_false]
        rw [expState_sent,
          show (escapeJSON s).take (p - 14) = escapeJSON s from
            List.take_of_length_le (by omega)]
        rw [expState, if_neg (by omega), if_neg (by omega), hcq]

theorem step_delta (s : List Char) (p q : Nat) (hpq : p < q)
    (hql : q ≤ (wire s).length) :
    deltaOf (expState s p).sent (stepValue (expState s p) (((wire s).take q).drop p)) =
      deltaOf ((escapeJSON s).take (p - 14)) ((escapeJSON s).take (q - 14)) := by
  have hEq := (escape_invariant s).1
  have hEr := (escape_invariant s).2
  have hW := wire_len s
  simp only [stepValue]
  rw [step_buf s p q (le_of_lt hpq)]
  rw [expState_sent]
  by_cases hqA : q < 14
  · have hpA : p < 14 := by omega
    rw [wire_take_A s q (by omega), markerScan_A_none s p q hpA hqA]
    simp only [Bool.false_eq_true, if_false]
    rw [show p - 14 = 0 from by omega, show q - 14 = 0 from by omega]
  · by_cases hqB : q ≤ 14 + (escapeJSON s).length
    · have hbq : (wire s).take q = encHeader ++ (escapeJSON s).take (q - 14) := by
        have h := wire_take_B s (q - 14) (by omega)
        rw [show (14 : Nat) + (q - 14) = q from by omega] at h
        exact h
      rw [hbq]
      have hms : markerScan (expState s p) (encHeader ++ (escapeJSON s).take (q - 14)) =
          (true, 14) := by
        by_cases hpA : p < 14
        · exact markerScan_A s p hpA _
        · exact markerScan_B s p hpA (by omega) _
      rw [hms]
      simp only [if_true]
      rw [valueScan_B s (q - 14)]
    · have hj1 : 1 ≤ q - 14 - (escapeJSON s).length := by omega
      have hj96 : q - 14 - (escapeJSON s).length ≤ 96 := by omega
      have hcq : (wire s).take q =
          encHeader ++ (escapeJSON s ++ encTail.take (q - 14 - (escapeJSON s).length)) := by
        have h := wire_take_C s (q - 14 - (escapeJSON s).length)
        rw [show (14 : Nat) + (escapeJSON s).length + (q - 14 - (escapeJSON s).length) = q
          from by omega] at h
        exact h
      rw [hcq]
      by_cases hpC : p ≤ 14 + (escapeJSON s).length
      · have hms : markerScan (expState s p)
            (encHeader ++ (escapeJSON s ++ encTail.take (q - 14 - (escapeJSON s).length))) =
            (true, 14) := by
          by_cases hpA : p < 14
          · exact markerScan_A s p hpA _
          · exact markerScan_B s p hpA hpC _
        rw [hms]
        simp only [if_true]
        rw [encTail_take_cons _ hj1, valueScan_C (escapeJSON s) _ hEq hEr]
        rw [show (escapeJSON s).take (q - 14) = escapeJSON s from
          List.take_of_length_le (by omega)]
      · rw [markerScan_C s p (by omega) (by omega) _ hj96]
        simp only [Bool.false_eq_true, if_false]
        rw [show (escapeJSON s).take (p - 14) = escapeJSON s from
          List.take_of_length_le (by omega)]
        rw [show (escapeJSON s).take (q - 14) = escapeJSON s from
          List.take_of_length_le (by omega)]

theorem step_finish (s : List Char) (hs : ∀ c ∈ s, safeChar c = true)
    (q : Nat) (hql : q ≤ (wire s).length) :
    finishEvents ((wire s).take q) =
      (if q = (wire s).length then [SEvent.complete (objNull s)] else []) ∧
    finishAlive ((wire s).take q) = !decide (q = (wire s).length) := by
  have hEq := (escape_invariant s).1
  have hEr := (escape_invariant s).2
  have hW := wire_len s
  by_cases hful : q = (wire s).length
  · rw [hful, List.take_length]
    rw [finishEvents, finishAlive, completionReady_wire s hEq hEr]
    simp only [if_true]
    rw [jsonParse_wire s hs]
    simp
  · have hready : completionReady ((wire s).take q) = false := by
      by_cases hqA : q < 14
      · rw [wire_take_A s q (by omega)]
        exact encHeader_take_not_ready q hqA
      · by_cases hqB : q ≤ 14 + (escapeJSON s).length
        · have hbq : (wire s).take q = encHeader ++ (escapeJSON s).take (q - 14) := by
            have h := wire_take_B s (q - 14) (by omega)
            rw [show (14 : Nat) + (q - 14) = q from by omega] at h
            exact h
          rw [hbq]
          exact completionReady_header_val _ (escape_prefix_quotes s _)
        · have hcq : (wire s).take q =
              encHeader ++ (escapeJSON s ++ encTail.take (q - 14 - (escapeJSON s).length)) := by
            have h := wire_take_C s (q - 14 - (escapeJSON s).length)
            rw [show (14 : Nat) + (escapeJSON s).length + (q - 14 - (escapeJSON s).length) = q
              from by omega] at h
            exact h
          rw [hcq]
          exact completionReady_regC hEq hEr _ (by omega)
    rw [finishEvents, finishAlive, hready]
    simp [hful]

theorem runChunks_wire (s : List Char) (hs : ∀ c ∈ s, safeChar c = true) :
    ∀ (cs : List (List Char)) (p : Nat), cs ≠ [] → (∀ c ∈ cs, c ≠ []) →
    p ≤ (wire s).length → cs.flatten = (wire s).drop p →
    ∃ ds : List (List Char),
      runChunks (expState s p) cs =
        (ds.map SEvent.delta ++ [SEvent.complete (objNull s)], none) ∧
      (escapeJSON s).take (p - 14) ++ ds.flatten = escapeJSON s := by
  intro cs
  induction cs with
  | nil => intro p h; exact absurd rfl h
  | cons c cs ih =>
    intro p _ hne hple hflat
    rw [List.flatten_cons] at hflat
    have hc : c ≠ [] := hne c (by simp)
    have hclen : 1 ≤ c.length := List.length_pos.2 hc
    have hflatlen : c.length + cs.flatten.length = (wire s).length - p := by
      have h := congrArg List.length hflat
      rw [List.length_append, List.length_drop] at h
      omega
    have hq : p + c.length ≤ (wire s).length := by omega
    have hpq : p < p + c.length := by omega
    have hcform : c = ((wire s).take (p + c.length)).drop p := by
      have h1 : ((wire s).take (p + c.length)).drop p = ((wire s).drop p).take c.length := by
        rw [List.drop_take]
        congr 1
        omega
      rw [h1, ← hflat]
      exact (List.take_left c cs.flatten).symm
    have hrest : cs.flatten = (wire s).drop (p + c.length) := by
      have h := congrArg (List.drop c.length) hflat
      rw [List.drop_left, List.drop_drop] at h
      rw [h]
    have hCC : consumeChunk (expState s p) c =
        (expState s (p + c.length),
         deltaOf ((escapeJSON s).take (p - 14)) ((escapeJSON s).take (p + c.length - 14)) ++
           (if p + c.length = (wire s).length then [SEvent.complete (objNull s)] else []),
         !decide (p + c.length = (wire s).length)) := by
      rw [consumeChunk]
      rw [show (expState s p).buf ++ c = (wire s).take (p + c.length) from by
        conv_lhs => rw [hcform]
        exact step_buf s p (p + c.length) (le_of_lt hpq)]
      rw [(step_finish s hs (p + c.length) hq).1, (step_finish s hs (p + c.length) hq).2]
      conv_lhs => rw [hcform]
      rw [step_state s p (p + c.length) hpq hq, step_delta s p (p + c.length) hpq hq]
      rw [← hcform]
    rw [runChunks, hCC]
    rw [deltaOf]
    by_cases hful : p + c.length = (wire s).length
    · have hcs : cs = [] := by
        cases cs with
        | nil => rfl
        | cons d ds =>
          exfalso
          have hd : d ≠ [] := hne d (by simp)
          have h := congrArg List.length hrest
          rw [List.length_drop, List.flatten_cons, List.length_append] at h
          have : 1 ≤ d.length := List.length_pos.2 hd
          omega
      subst hcs
      rw [if_pos hful, decide_eq_true hful]
      simp only [Bool.not_true]
      have hWq : (escapeJSON s).length ≤ p + c.length - 14 := by
        rw [wire_len] at hful
        omega
      by_cases hd : ((escapeJSON s).take (p + c.length - 14)).length >
          ((escapeJSON s).take (p - 14)).length
      · rw [if_pos hd]
        refine ⟨[((escapeJSON s).take (p + c.length - 14)).drop
          ((escapeJSON s).take (p - 14)).length], ?_, ?_⟩
        · simp
        · simp only [List.flatten_cons, List.flatten_nil, List.append_nil]
          rw [take_slice_tile (escapeJSON s) (p - 14) (p + c.length - 14) (by omega)]
          exact List.take_of_length_le hWq
      · rw [if_neg hd]
        refine ⟨[], ?_, ?_⟩
        · simp
        · simp only [List.flatten_nil, List.append_nil]
          rw [take_eq_of_not_longer (escapeJSON s) (p - 14) (p + c.length - 14)
            (by omega) hd]
          exact List.take_of_length_le hWq
    · have hcs : cs ≠ [] := by
        intro h
        rw [h] at hrest
        have hlen := congrArg List.length hrest
        rw [List.length_drop] at hlen
        simp at hlen
        omega
      obtain ⟨ds', hds1, hds2⟩ := ih (p + c.length) hcs
        (fun x hx => hne x (by simp [hx])) hq hrest
      rw [if_neg hful, decide_eq_false hful]
      simp only [Bool.not_false, List.append_nil]
      by_cases hd : ((escapeJSON s).take (p + c.length - 14)).length >
          ((escapeJSON s).take (p - 14)).length
      · rw [if_pos hd]
        refine ⟨((escapeJSON s).take (p + c.length - 14)).drop
          ((escapeJSON s).take (p - 14)).length :: ds', ?_, ?_⟩
        · rw [hds1]
          simp
        · rw [List.flatten_cons, ← List.append_assoc]
          rw [take_slice_tile (escapeJSON s) (p - 14) (p + c.length - 14) (by omega)]
          exact hds2
      · rw [if_neg hd]
        refine ⟨ds', ?_, ?_⟩
        · rw [hds1]
          simp
        · rw [take_eq_of_not_longer (escapeJSON s) (p - 14) (p + c.length - 14)
            (by omega) hd]
          exact hds2

/-! ### The C6 determinism stack: parses extend over appended input -/


theorem dropWhile_append_ne {p : Char → Bool} :
    ∀ {l : List Char} (Y : List Char), l.dropWhile p ≠ [] →
      (l ++ Y).takeWhile p = l.takeWhile p ∧ (l ++ Y).dropWhile p = l.dropWhile p ++ Y
  | [], Y, h => absurd rfl h
  | c :: l, Y, h => by
    by_cases hc : p c
    · rw [List.dropWhile_cons_of_pos hc] at h
      have ih := dropWhile_append_ne (l := l) Y h
      rw [List.cons_append, List.takeWhile_cons_of_pos hc, List.takeWhile_cons_of_pos hc,
        List.dropWhile_cons_of_pos hc, List.dropWhile_cons_of_pos hc]
      exact ⟨by rw [ih.1], ih.2⟩
    · rw [List.cons_append]
      rw [List.takeWhile_cons_of_neg hc, List.takeWhile_cons_of_neg hc,
        List.dropWhile_cons_of_neg hc, List.dropWhile_cons_of_neg hc]
      exact ⟨rfl, rfl⟩

theorem dropWhile_append_nil {p : Char → Bool} :
    ∀ {l : List Char} (Y : List Char), l.dropWhile p = [] →
      (l ++ Y).takeWhile p = l ++ Y.takeWhile p ∧ (l ++ Y).dropWhile p = Y.dropWhile p
  | [], Y, _ => ⟨rfl, rfl⟩
  | c :: l, Y, h => by
    by_cases hc : p c
    · rw [List.dropWhile_cons_of_pos hc] at h
      have ih := dropWhile_append_nil (l := l) Y h
      rw [List.cons_append, List.takeWhile_cons_of_pos hc,
        List.dropWhile_cons_of_pos hc]
      exact ⟨by rw [ih.1, List.cons_append], ih.2⟩
    · rw [List.dropWhile_cons_of_neg hc] at h
      exact absurd h (by simp)

theorem skipWs_extend {l : List Char} (Y : List Char) (h : skipWs l ≠ []) :
    skipWs (l ++ Y) = skipWs l ++ Y := by
  rw [skipWs, skipWs] at *
  exact (dropWhile_append_ne Y h).2

theorem parseNumber_extend {l : List Char} {v : Json} {r Y : List Char}
    (h : parseNumber l = some (v, r))
    (hY : r = [] → Y.takeWhile numChar = []) :
    parseNumber (l ++ Y) = some (v, r ++ Y) := by
  rw [parseNumber] at h
  split at h
  · rename_i hval
    injection h with h1
    injection h1 with hv hr
    by_cases hr0 : l.dropWhile numChar = []
    · have hY0 := hY (by rw [← hr, hr0])
      have htk : l.takeWhile numChar = l := by
        have h2 := List.takeWhile_append_dropWhile (p := numChar) (l := l)
        rw [hr0, List.append_nil] at h2
        exact h2
      have hdw : Y.dropWhile numChar = Y := by
        have h2 := List.takeWhile_append_dropWhile (p := numChar) (l := Y)
        rw [hY0, List.nil_append] at h2
        exact h2
      have hd := dropWhile_append_nil (p := numChar) Y hr0
      rw [parseNumber, hd.1, hd.2, hY0, List.append_nil, hdw]
      rw [htk] at hval
      rw [if_pos hval, ← hv, ← hr, hr0, List.nil_append, htk]
    · have hd := dropWhile_append_ne (p := numChar) Y hr0
      rw [parseNumber, hd.1, hd.2, if_pos hval, ← hv, ← hr]
  · exact absurd h (by simp)

theorem parseValue_nil : ∀ f, parseValue f ([] : List Char) = none
  | 0 => rfl
  | _ + 1 => rfl

theorem parseMembersF_nil (pv : List Char → Option (Json × List Char)) :
    ∀ fuel acc, parseMembersF pv fuel acc ([] : List Char) = none
  | 0, _ => rfl
  | _ + 1, _ => rfl

theorem parseMembersF_some_head {pv : List Char → Option (Json × List Char)}
    {fuel : Nat} {acc : List (List Char × Json)} {l : List Char}
    {res : Json × List Char} (h : parseMembersF pv fuel acc l = some res) :
    ∃ t, l = '"' :: t := by
  match fuel, l with
  | 0, x => exact absurd h (by rw [show parseMembersF pv 0 acc x = none from rfl]; simp)
  | fuel + 1, [] => exact absurd h (by rw [parseMembersF_nil]; simp)
  | fuel + 1, c :: t =>
    by_cases hc : c = '"'
    · exact ⟨t, by rw [hc]⟩
    · exfalso
      rw [parseMembersF.eq_def] at h
      split at h
      · rename_i heq
        exact absurd heq (by omega)
      · split at h
        · rename_i heq
          injection heq with he _
          exact hc he
        · exact absurd h (by simp)

theorem parseStringBody_extend : ∀ {l : List Char} {k r : List Char} (Y : List Char),
    parseStringBody l = some (k, r) → parseStringBody (l ++ Y) = some (k, r ++ Y) := by
  intro l
  induction l using parseStringBody.induct with
  | case1 rest =>
    intro k r Y h
    rw [parseStringBody] at h
    injection h with h1
    injection h1 with hk hr
    rw [List.cons_append, parseStringBody, ← hk, ← hr]
  | case2 =>
    rename_i a b c d rest va vb vc vd hd hc hb ha n hval s0 r0 hbody ih
    intro k r Y h
    rw [parseStringBody.eq_def] at h
    simp only [ha, hb, hc, hd] at h
    rw [if_pos hval, hbody] at h
    injection h with h1
    injection h1 with hk hr
    simp only [List.cons_append]
    rw [parseStringBody.eq_def]
    simp only [ha, hb, hc, hd]
    rw [if_pos hval, ih Y hbody, ← hk, ← hr]
  | case3 =>
    rename_i a b c d rest va vb vc vd hd hc hb ha n hval hbodyn ih
    intro k r Y h
    rw [parseStringBody.eq_def] at h
    simp only [ha, hb, hc, hd] at h
    rw [if_pos hval, hbodyn] at h
    simp at h
  | case4 =>
    rename_i a b c d rest va vb vc vd hd hc hb ha n hnval
    intro k r Y h
    rw [parseStringBody.eq_def] at h
    simp only [ha, hb, hc, hd] at h
    rw [if_neg hnval] at h
    simp at h
  | case5 =>
    rename_i a b c d rest hfail
    intro k r Y h
    exfalso
    rw [parseStringBody.eq_def] at h
    rcases hha : hexDigitVal a with _ | va <;> rcases hhb : hexDigitVal b with _ | vb <;>
      rcases hhc : hexDigitVal c with _ | vc <;> rcases hhd : hexDigitVal d with _ | vd <;>
      simp [hha, hhb, hhc, hhd] at h
    exact hfail va vb vc vd hha hhb hhc hhd
  | case6 =>
    rename_i e rest hne ch hsu s0 r0 hbody ih
    intro k r Y h
    rw [parseStringBody.eq_def] at h
    split at h
    · rename_i heq
      injection heq with he _
      exact absurd he (by decide)
    · rename_i a2 b2 c2 d2 rest2 heq
      injection heq with _ h2
      injection h2 with he hrest
      exact (hne a2 b2 c2 d2 rest2 he hrest).elim
    · rename_i e2 rest2 hne2 heq
      injection heq with _ h2
      injection h2 with he hrest
      rw [← he, ← hrest, hsu, hbody] at h
      conv at h =>
        lhs
        whnf
      injection h with h1
      injection h1 with hk hr
      simp only [List.cons_append]
      rw [parseStringBody.eq_def]
      split
      · rename_i heq2
        injection heq2 with he2 _
        exact absurd he2 (by decide)
      · rename_i a3 b3 c3 d3 rest3 heq2
        injection heq2 with _ h3
        injection h3 with he3 _
        rw [he3] at hsu
        exact absurd hsu (by simp [simpleUnescape])
      · rename_i e3 rest3 hne3 heq2
        injection heq2 with _ h3
        injection h3 with he3 hrest3
        rw [← he3, ← hrest3, hsu, ih Y hbody, ← hk, ← hr]
      · rename_i c3 rest3 hq3 hu3 hbs3 heq2
        injection heq2 with hc3 hrest3
        exact (hbs3 e (rest ++ Y) hc3.symm hrest3.symm).elim
      · rename_i heq2
        exact absurd heq2 (by simp)
    · rename_i c2 rest2 hq2 hu2 hbs2 heq
      injection heq with hc2 hrest2
      exact (hbs2 e rest hc2.symm hrest2.symm).elim
    · rename_i heq
      exact absurd heq (by simp)
  | case7 =>
    rename_i e rest hne ch hsu hbodyn ih
    intro k r Y h
    exfalso
    rw [parseStringBody.eq_def] at h
    split at h
    · rename_i heq
      injection heq with he _
      exact absurd he (by decide)
    · rename_i a2 b2 c2 d2 rest2 heq
      injection heq with _ h2
      injection h2 with he hrest
      exact hne a2 b2 c2 d2 rest2 he hrest
    · rename_i e2 rest2 hne2 heq
      injection heq with _ h2
      injection h2 with he hrest
      rw [← he, ← hrest, hsu, hbodyn] at h
      simp at h
    · rename_i c2 rest2 hq2 hu2 hbs2 heq
      injection heq with hc2 hrest2
      exact hbs2 e rest hc2.symm hrest2.symm
    · rename_i heq
      exact absurd heq (by simp)
  | case8 =>
    rename_i e rest hne hsun
    intro k r Y h
    exfalso
    rw [parseStringBody.eq_def] at h
    split at h
    · rename_i heq
      injection heq with he _
      exact absurd he (by decide)
    · rename_i a2 b2 c2 d2 rest2 heq
      injection heq with _ h2
      injection h2 with he hrest
      exact hne a2 b2 c2 d2 rest2 he hrest
    · rename_i e2 rest2 hne2 heq
      injection heq with _ h2
      injection h2 with he hrest
      rw [← he, hsun] at h
      simp at h
    · rename_i c2 rest2 hq2 hu2 hbs2 heq
      injection heq with hc2 hrest2
      exact hbs2 e rest hc2.symm hrest2.symm
    · rename_i heq
      exact absurd heq (by simp)
  | case9 =>
    rename_i c rest hq hu hbs h32
    intro k r Y h
    exfalso
    rw [parseStringBody.eq_def] at h
    split at h
    · rename_i heq
      injection heq with he _
      exact hq he
    · rename_i a2 b2 c2 d2 rest2 heq
      injection heq with hc2 h2
      exact hu a2 b2 c2 d2 rest2 hc2 h2
    · rename_i e2 rest2 hne2 heq
      injection heq with hc2 h2
      exact hbs e2 rest2 hc2 h2
    · rename_i c2 rest2 hq2 hu2 hbs2 heq
      injection heq with hc2 hrest2
      rw [← hc2] at h
      rw [if_pos h32] at h
      simp at h
    · rename_i heq
      exact absurd heq (by simp)
  | case10 =>
    rename_i c rest hq hu hbs h32 s0 r0 hbody ih
    intro k r Y h
    have hrest_ne : rest ≠ [] := by
      intro h0
      rw [h0, parseStringBody] at hbody
      exact absurd hbody (by simp)
    have hcbs : ¬ c = '\\' := by
      intro hcb
      cases rest with
      | nil => exact hrest_ne rfl
      | cons x xs => exact hbs x xs hcb rfl
    rw [parseStringBody.eq_def] at h
    split at h
    · rename_i heq
      injection heq with he _
      exact (hq he).elim
    · rename_i a2 b2 c2 d2 rest2 heq
      injection heq with hc2 h2
      exact (hu a2 b2 c2 d2 rest2 hc2 h2).elim
    · rename_i e2 rest2 hne2 heq
      injection heq with hc2 h2
      exact (hbs e2 rest2 hc2 h2).elim
    · rename_i c2 rest2 hq2 hu2 hbs2 heq
      injection heq with hc2 hrest2
      rw [← hc2, ← hrest2] at h
      rw [if_neg h32, hbody] at h
      conv at h =>
        lhs
        whnf
      injection h with h1
      injection h1 with hk hr
      simp only [List.cons_append]
      rw [parseStringBody.eq_def]
      split
      · rename_i heq2
        injection heq2 with he2 _
        exact (hq he2).elim
      · rename_i a3 b3 c3 d3 rest3 heq2
        injection heq2 with hc3 _
        exact (hcbs hc3).elim
      · rename_i e3 rest3 hne3 heq2
        injection heq2 with hc3 _
        exact (hcbs hc3).elim
      · rename_i c3 rest3 hq3 hu3 hbs3 heq2
        injection heq2 with hc3 hrest3
        rw [← hc3, ← hrest3]
        rw [if_neg h32, ih Y hbody, ← hk, ← hr]
      · rename_i heq2
        exact absurd heq2 (by simp)
    · rename_i heq
      exact absurd heq (by simp)
  | case11 =>
    rename_i c rest hq hu hbs h32 hbodyn ih
    intro k r Y h
    exfalso
    rw [parseStringBody.eq_def] at h
    split at h
    · rename_i heq
      injection heq with he _
      exact hq he
    · rename_i a2 b2 c2 d2 rest2 heq
      injection heq with hc2 h2
      exact hu a2 b2 c2 d2 rest2 hc2 h2
    · rename_i e2 rest2 hne2 heq
      injection heq with hc2 h2
      exact hbs e2 rest2 hc2 h2
    · rename_i c2 rest2 hq2 hu2 hbs2 heq
      injection heq with hc2 hrest2
      rw [← hc2, ← hrest2] at h
      rw [if_neg h32, hbodyn] at h
      simp at h
    · rename_i heq
      exact absurd heq (by simp)
  | case12 =>
    intro k r Y h
    rw [parseStringBody] at h
    exact absurd h (by simp)

theorem parseMembersF_extend {pv pv' : List Char → Option (Json × List Char)}
    (Hnil : pv [] = none)
    (Hpv : ∀ {x : List Char} {v : Json} {rr : List Char} (Y : List Char),
      pv x = some (v, rr) → rr ≠ [] → pv' (x ++ Y) = some (v, rr ++ Y)) :
    ∀ (fuel : Nat) {fuel' : Nat} {acc : List (List Char × Json)}
      {l : List Char} {v : Json} {r : List Char} (Y : List Char),
      fuel ≤ fuel' → parseMembersF pv fuel acc l = some (v, r) →
      parseMembersF pv' fuel' acc (l ++ Y) = some (v, r ++ Y) := by
  intro fuel
  induction fuel with
  | zero =>
    intro fuel' acc l v r Y hle h
    exact absurd h (by rw [show parseMembersF pv 0 acc l = none from rfl]; simp)
  | succ fuel ih =>
    intro fuel' acc l v r Y hle h
    obtain ⟨tl, rfl⟩ := parseMembersF_some_head h
    obtain ⟨f2, rfl⟩ : ∃ f2, fuel' = f2 + 1 := ⟨fuel' - 1, by omega⟩
    rw [parseMembersF.eq_def] at h
    split at h
    · rename_i heq
      exact absurd heq (by omega)
    · rename_i accA n2 accB lB f3 heqf
      conv at h =>
        lhs
        whnf
      have hf3 : f3 = fuel := by omega
      subst hf3
      rcases hkey : parseStringBody tl with _ | ⟨kk, r1⟩
      · rw [hkey] at h
        simp at h
      · rw [hkey] at h
        conv at h =>
          lhs
          whnf
        rcases hsk1 : skipWs r1 with _ | ⟨c1, r2⟩
        · rw [hsk1] at h
          simp at h
        · rw [hsk1] at h
          by_cases hc1 : c1 = ':'
          · subst hc1
            conv at h =>
              lhs
              whnf
            rcases hpv1 : pv (skipWs r2) with _ | ⟨v1, r3⟩
            · rw [hpv1] at h
              simp at h
            · rw [hpv1] at h
              conv at h =>
                lhs
                whnf
              rcases hsk3 : skipWs r3 with _ | ⟨c3, r4⟩
              · rw [hsk3] at h
                simp at h
              · rw [hsk3] at h
                have hr2ne : skipWs r2 ≠ [] := by
                  intro h0
                  rw [h0, Hnil] at hpv1
                  exact absurd hpv1 (by simp)
                have hr3ne : r3 ≠ [] := by
                  intro h0
                  rw [h0] at hsk3
                  exact absurd hsk3 (by simp [skipWs])
                by_cases hc3 : c3 = '\x7d'
                · subst hc3
                  conv at h =>
                    lhs
                    whnf
                  injection h with h1
                  injection h1 with hv hr
                  simp only [List.cons_append]
                  rw [parseMembersF.eq_def]
                  conv_lhs => whnf
                  try simp only [List.append_eq]
                  rw [parseStringBody_extend Y hkey]
                  conv_lhs => whnf
                  try simp only [List.append_eq]
                  rw [skipWs_extend Y (by rw [hsk1]; simp), hsk1]
                  conv_lhs => whnf
                  try simp only [List.append_eq]
                  rw [skipWs_extend Y hr2ne, Hpv Y hpv1 hr3ne]
                  conv_lhs => whnf
                  try simp only [List.append_eq]
                  rw [skipWs_extend Y (by rw [hsk3]; simp), hsk3]
                  conv_lhs => whnf
                  try simp only [List.append_eq]
                  rw [← hv, ← hr]
                · by_cases hc3b : c3 = ','
                  · subst hc3b
                    conv at h =>
                      lhs
                      whnf
                    have hr4q : skipWs r4 ≠ [] := by
                      obtain ⟨t4, ht4⟩ := parseMembersF_some_head h
                      rw [ht4]
                      simp
                    simp only [List.cons_append]
                    rw [parseMembersF.eq_def]
                    conv_lhs => whnf
                    try simp only [List.append_eq]
                    rw [parseStringBody_extend Y hkey]
                    conv_lhs => whnf
                    try simp only [List.append_eq]
                    rw [skipWs_extend Y (by rw [hsk1]; simp), hsk1]
                    conv_lhs => whnf
                    try simp only [List.append_eq]
                    rw [skipWs_extend Y hr2ne, Hpv Y hpv1 hr3ne]
                    conv_lhs => whnf
                    try simp only [List.append_eq]
                    rw [skipWs_extend Y (by rw [hsk3]; simp), hsk3]
                    conv_lhs => whnf
                    try simp only [List.append_eq]
                    rw [skipWs_extend Y hr4q]
                    exact ih Y (by omega) h
                  · split at h
                    · rename_i heq3
                      injection heq3 with he3 _
                      exact absurd he3 hc3
                    · rename_i heq3
                      injection heq3 with he3 _
                      exact absurd he3 hc3b
                    · exact absurd h (by simp)
          · split at h
            · rename_i heq2
              injection heq2 with he2 _
              exact absurd he2 hc1
            · exact absurd h (by simp)

theorem parseElemsF_nil {pv : List Char → Option (Json × List Char)}
    (Hnil : pv [] = none) :
    ∀ (fuel : Nat) (acc : List Json), parseElemsF pv fuel acc ([] : List Char) = none
  | 0, _ => rfl
  | fuel + 1, acc => by
    conv_lhs => whnf
    rw [Hnil]

theorem parseElemsF_extend {pv pv' : List Char → Option (Json × List Char)}
    (Hnil : pv [] = none)
    (Hpv : ∀ {x : List Char} {v : Json} {rr : List Char} (Y : List Char),
      pv x = some (v, rr) → rr ≠ [] → pv' (x ++ Y) = some (v, rr ++ Y)) :
    ∀ (fuel : Nat) {fuel' : Nat} {acc : List Json}
      {l : List Char} {v : Json} {r : List Char} (Y : List Char),
      fuel ≤ fuel' → parseElemsF pv fuel acc l = some (v, r) →
      parseElemsF pv' fuel' acc (l ++ Y) = some (v, r ++ Y) := by
  intro fuel
  induction fuel with
  | zero =>
    intro fuel' acc l v r Y hle h
    exact absurd h (by rw [show parseElemsF pv 0 acc l = none from rfl]; simp)
  | succ fuel ih =>
    intro fuel' acc l v r Y hle h
    obtain ⟨f2, rfl⟩ : ∃ f2, fuel' = f2 + 1 := ⟨fuel' - 1, by omega⟩
    conv at h =>
      lhs
      whnf
    rcases hpv1 : pv l with _ | ⟨v1, r1⟩
    · rw [hpv1] at h
      simp at h
    · rw [hpv1] at h
      conv at h =>
        lhs
        whnf
      rcases hsk1 : skipWs r1 with _ | ⟨c1, r2⟩
      · rw [hsk1] at h
        simp at h
      · rw [hsk1] at h
        have hr1ne : r1 ≠ [] := by
          intro h0
          rw [h0] at hsk1
          exact absurd hsk1 (by simp [skipWs])
        by_cases hc1 : c1 = ']'
        · subst hc1
          conv at h =>
            lhs
            whnf
          injection h with h1
          injection h1 with hv hr
          rw [parseElemsF.eq_def]
          conv_lhs => whnf
          try simp only [List.append_eq]
          rw [Hpv Y hpv1 hr1ne]
          conv_lhs => whnf
          try simp only [List.append_eq]
          rw [skipWs_extend Y (by rw [hsk1]; simp), hsk1]
          conv_lhs => whnf
          try simp only [List.append_eq]
          rw [← hv, ← hr]
        · by_cases hc1b : c1 = ','
          · subst hc1b
            conv at h =>
              lhs
              whnf
            have hr2q : skipWs r2 ≠ [] := by
              intro h0
              rw [h0, parseElemsF_nil Hnil] at h
              exact absurd h (by simp)
            rw [parseElemsF.eq_def]
            conv_lhs => whnf
            try simp only [List.append_eq]
            rw [Hpv Y hpv1 hr1ne]
            conv_lhs => whnf
            try simp only [List.append_eq]
            rw [skipWs_extend Y (by rw [hsk1]; simp), hsk1]
            conv_lhs => whnf
            try simp only [List.append_eq]
            rw [skipWs_extend Y hr2q]
            exact ih Y (by omega) h
          · split at h
            · rename_i heq
              injection heq with he _
              exact absurd he hc1
            · rename_i heq
              injection heq with he _
              exact absurd he hc1b
            · exact absurd h (by simp)

theorem parseValue_extend :
    ∀ (f : Nat) {l : List Char} {v : Json} {r : List Char} (Y : List Char),
      parseValue f l = some (v, r) →
      (∀ t, v = Json.num t → r = [] → Y.takeWhile numChar = []) →
      parseValue f (l ++ Y) = some (v, r ++ Y) := by
  intro f
  induction f with
  | zero =>
    intro l v r Y h _
    exact absurd h (by rw [parseValue]; simp)
  | succ f ih =>
    intro l v r Y h hnum
    conv at h =>
      lhs
      whnf
    have Hpv : ∀ {x : List Char} {v' : Json} {rr : List Char} (Y' : List Char),
        parseValue f x = some (v', rr) → rr ≠ [] →
        parseValue f (x ++ Y') = some (v', rr ++ Y') :=
      fun Y' h' hne' => ih Y' h' (fun t hvt hrr => absurd hrr hne')
    split at h
    · rename_i l0 r0
      rcases hsk : skipWs r0 with _ | ⟨c1, r1⟩
      · rw [hsk] at h
        conv at h =>
          lhs
          whnf
        exact absurd h (by simp)
      · rw [hsk] at h
        by_cases hc1 : c1 = '\x7d'
        · subst hc1
          conv at h =>
            lhs
            whnf
          injection h with h1
          injection h1 with hv hr
          rw [parseValue.eq_def]
          conv_lhs => whnf
          try simp only [List.append_eq]
          rw [skipWs_extend Y (by rw [hsk]; simp), hsk]
          conv_lhs => whnf
          try simp only [List.append_eq]
          rw [← hv, ← hr]
        · split at h
          · rename_i heq
            injection heq with he _
            exact absurd he hc1
          · rename_i hne1
            rw [parseValue.eq_def]
            conv_lhs => whnf
            try simp only [List.append_eq]
            rw [skipWs_extend Y (by rw [hsk]; simp), hsk]
            simp only [List.cons_append]
            split
            · rename_i heq2
              injection heq2 with he2 _
              exact absurd he2 hc1
            · rename_i hne2
              exact parseMembersF_extend (parseValue_nil f) Hpv
                ((c1 :: r1).length + 1) Y (by simp) h
    · rename_i l0 r0
      rcases hsk : skipWs r0 with _ | ⟨c1, r1⟩
      · rw [hsk] at h
        conv at h =>
          lhs
          whnf
        rw [parseValue_nil] at h
        exact absurd h (by simp)
      · rw [hsk] at h
        by_cases hc1 : c1 = ']'
        · subst hc1
          conv at h =>
            lhs
            whnf
          injection h with h1
          injection h1 with hv hr
          rw [parseValue.eq_def]
          conv_lhs => whnf
          try simp only [List.append_eq]
          rw [skipWs_extend Y (by rw [hsk]; simp), hsk]
          conv_lhs => whnf
          try simp only [List.append_eq]
          rw [← hv, ← hr]
        · split at h
          · rename_i heq
            injection heq with he _
            exact absurd he hc1
          · rename_i hne1
            rw [parseValue.eq_def]
            conv_lhs => whnf
            try simp only [List.append_eq]
            rw [skipWs_extend Y (by rw [hsk]; simp), hsk]
            simp only [List.cons_append]
            split
            · rename_i heq2
              injection heq2 with he2 _
              exact absurd he2 hc1
            · rename_i hne2
              exact parseElemsF_extend (parseValue_nil f) Hpv
                ((c1 :: r1).length + 1) Y (by simp) h
    · rename_i l0 r0
      rcases hps : parseStringBody r0 with _ | ⟨s1, r1⟩
      · rw [hps] at h
        exact absurd h (by simp)
      · rw [hps] at h
        conv at h =>
          lhs
          whnf
        injection h with h1
        injection h1 with hv hr
        rw [parseValue.eq_def]
        conv_lhs => whnf
        try simp only [List.append_eq]
        rw [parseStringBody_extend Y hps]
        conv_lhs => whnf
        try simp only [List.append_eq]
        rw [← hv, ← hr]
    · rename_i l0 r0
      injection h with h1
      injection h1 with hv hr
      rw [parseValue.eq_def]
      conv_lhs => whnf
      try simp only [List.append_eq]
      rw [← hv, ← hr]
    · rename_i l0 r0
      injection h with h1
      injection h1 with hv hr
      rw [parseValue.eq_def]
      conv_lhs => whnf
      try simp only [List.append_eq]
      rw [← hv, ← hr]
    · rename_i l0 r0
      injection h with h1
      injection h1 with hv hr
      rw [parseValue.eq_def]
      conv_lhs => whnf
      try simp only [List.append_eq]
      rw [← hv, ← hr]
    · rename_i l0 c0 r0 hnb hna hnq hnt hnf2 hnn
      by_cases hg : (c0.isDigit || c0 == '-') = true
      · rw [if_pos hg] at h
        have hshape := h
        rw [parseNumber] at hshape
        split at hshape
        · rename_i hval
          injection hshape with h1
          injection h1 with hv hr
          have hext := parseNumber_extend h (fun hr0 => hnum _ hv.symm hr0)
          simp only [List.cons_append] at hext ⊢
          rw [parseValue.eq_def]
          conv_lhs => whnf
          split
          · rename_i heq2
            injection heq2 with he2 _
            subst he2
            exact absurd hg (by decide)
          · rename_i heq2
            injection heq2 with he2 _
            subst he2
            exact absurd hg (by decide)
          · rename_i heq2
            injection heq2 with he2 _
            subst he2
            exact absurd hg (by decide)
          · rename_i heq2
            injection heq2 with he2 _
            subst he2
            exact absurd hg (by decide)
          · rename_i heq2
            injection heq2 with he2 _
            subst he2
            exact absurd hg (by decide)
          · rename_i heq2
            injection heq2 with he2 _
            subst he2
            exact absurd hg (by decide)
          · rename_i c2 r2 hxb hxa hxq hxt hxf hxn heq2
            injection heq2 with hce hre
            subst hce
            subst hre
            rw [if_pos hg]
            exact hext
          · rename_i heq2
            exact absurd heq2 (by simp)
        · exact absurd hshape (by simp)
      · rw [if_neg hg] at h
        exact absurd h (by simp)
    · exact absurd h (by simp)

theorem parseMembersF_mono {pv pv' : List Char → Option (Json × List Char)}
    (Hpv : ∀ {x : List Char} {res : Json × List Char}, pv x = some res → pv' x = some res) :
    ∀ (fuel : Nat) {acc : List (List Char × Json)} {l : List Char}
      {res : Json × List Char},
      parseMembersF pv fuel acc l = some res → parseMembersF pv' fuel acc l = some res := by
  intro fuel
  induction fuel with
  | zero =>
    intro acc l res h
    exact absurd h (by rw [show parseMembersF pv 0 acc l = none from rfl]; simp)
  | succ fuel ih =>
    intro acc l res h
    obtain ⟨tl, rfl⟩ := parseMembersF_some_head h
    conv at h =>
      lhs
      whnf
    rw [parseMembersF.eq_def]
    conv_lhs => whnf
    rcases hkey : parseStringBody tl with _ | ⟨kk, r1⟩
    · rw [hkey] at h
      exact absurd h (by simp)
    · rw [hkey] at h
      conv at h =>
        lhs
        whnf
      conv_lhs => whnf
      rcases hsk1 : skipWs r1 with _ | ⟨c1, r2⟩
      · rw [hsk1] at h
        exact absurd h (by simp)
      · rw [hsk1] at h
        by_cases hc1 : c1 = ':'
        · subst hc1
          conv at h =>
            lhs
            whnf
          conv_lhs => whnf
          rcases hpv1 : pv (skipWs r2) with _ | ⟨v1, r3⟩
          · rw [hpv1] at h
            exact absurd h (by simp)
          · rw [hpv1] at h
            rw [Hpv hpv1]
            conv at h =>
              lhs
              whnf
            conv_lhs => whnf
            rcases hsk3 : skipWs r3 with _ | ⟨c3, r4⟩
            · rw [hsk3] at h
              exact absurd h (by simp)
            · rw [hsk3] at h
              split at h
              · exact h
              · exact ih h
              · exact h
        · split at h
          · rename_i heq
            injection heq with he _
            exact absurd he hc1
          · exact h

theorem parseElemsF_mono {pv pv' : List Char → Option (Json × List Char)}
    (Hpv : ∀ {x : List Char} {res : Json × List Char}, pv x = some res → pv' x = some res) :
    ∀ (fuel : Nat) {acc : List Json} {l : List Char} {res : Json × List Char},
      parseElemsF pv fuel acc l = some res → parseElemsF pv' fuel acc l = some res := by
  intro fuel
  induction fuel with
  | zero =>
    intro acc l res h
    exact absurd h (by rw [show parseElemsF pv 0 acc l = none from rfl]; simp)
  | succ fuel ih =>
    intro acc l res h
    conv at h =>
      lhs
      whnf
    rw [parseElemsF.eq_def]
    conv_lhs => whnf
    rcases hpv1 : pv l with _ | ⟨v1, r1⟩
    · rw [hpv1] at h
      exact absurd h (by simp)
    · rw [hpv1] at h
      rw [Hpv hpv1]
      conv at h =>
        lhs
        whnf
      conv_lhs => whnf
      rcases hsk1 : skipWs r1 with _ | ⟨c1, r2⟩
      · rw [hsk1] at h
        exact absurd h (by simp)
      · rw [hsk1] at h
        split at h
        · exact h
        · exact ih h
        · exact h

theorem parseValue_mono :
    ∀ (f : Nat) {g : Nat} {l : List Char} {res : Json × List Char}, f ≤ g →
      parseValue f l = some res → parseValue g l = some res := by
  intro f
  induction f with
  | zero =>
    intro g l res hle h
    exact absurd h (by rw [parseValue]; simp)
  | succ f ih =>
    intro g l res hle h
    obtain ⟨g2, rfl⟩ : ∃ g2, g = g2 + 1 := ⟨g - 1, by omega⟩
    have Hpv : ∀ {x : List Char} {res2 : Json × List Char},
        parseValue f x = some res2 → parseValue g2 x = some res2 :=
      fun h' => ih (by omega) h'
    conv at h =>
      lhs
      whnf
    rw [parseValue.eq_def]
    conv_lhs => whnf
    split at h
    · split at h
      · exact h
      · exact parseMembersF_mono Hpv _ h
    · split at h
      · exact h
      · exact parseElemsF_mono Hpv _ h
    · exact h
    · exact h
    · exact h
    · exact h
    · exact h
    · exact h

theorem parseMembersF_obj {pv : List Char → Option (Json × List Char)} :
    ∀ (fuel : Nat) {acc : List (List Char × Json)} {l : List Char}
      {v : Json} {r : List Char},
      parseMembersF pv fuel acc l = some (v, r) → ∃ m, v = Json.obj m := by
  intro fuel
  induction fuel with
  | zero =>
    intro acc l v r h
    exact absurd h (by rw [show parseMembersF pv 0 acc l = none from rfl]; simp)
  | succ fuel ih =>
    intro acc l v r h
    rw [parseMembersF.eq_def] at h
    split at h
    · rename_i heq
      exact absurd heq (by omega)
    · rename_i accA n2 accB lB f4 heqf
      have hf4 : f4 = fuel := by omega
      subst hf4
      split at h
      · split at h
        · split at h
          · split at h
            · split at h
              · injection h with h1
                injection h1 with hv _
                exact ⟨_, hv.symm⟩
              · exact ih h
              · exact absurd h (by simp)
            · exact absurd h (by simp)
          · exact absurd h (by simp)
        · exact absurd h (by simp)
      · exact absurd h (by simp)

theorem parseElemsF_arr {pv : List Char → Option (Json × List Char)} :
    ∀ (fuel : Nat) {acc : List Json} {l : List Char} {v : Json} {r : List Char},
      parseElemsF pv fuel acc l = some (v, r) → ∃ m, v = Json.arr m := by
  intro fuel
  induction fuel with
  | zero =>
    intro acc l v r h
    exact absurd h (by rw [show parseElemsF pv 0 acc l = none from rfl]; simp)
  | succ fuel ih =>
    intro acc l v r h
    rw [parseElemsF.eq_def] at h
    split at h
    · rename_i heq
      exact absurd heq (by omega)
    · rename_i accA n2 accB lB f4 heqf
      have hf4 : f4 = fuel := by omega
      subst hf4
      split at h
      · split at h
        · injection h with h1
          injection h1 with hv _
          exact ⟨_, hv.symm⟩
        · exact ih h
        · exact absurd h (by simp)
      · exact absurd h (by simp)

theorem parseValue_num_shape :
    ∀ (f : Nat) {l t r : List Char},
      parseValue f l = some (Json.num t, r) →
      t = l.takeWhile numChar ∧ r = l.dropWhile numChar := by
  intro f
  cases f with
  | zero =>
    intro l t r h
    exact absurd h (by rw [parseValue]; simp)
  | succ f =>
    intro l t r h
    conv at h =>
      lhs
      whnf
    split at h
    · split at h
      · injection h with h1
        injection h1 with hv _
        exact absurd hv (by simp)
      · obtain ⟨m, hm⟩ := parseMembersF_obj _ h
        exact absurd hm (by simp)
    · split at h
      · injection h with h1
        injection h1 with hv _
        exact absurd hv (by simp)
      · obtain ⟨m, hm⟩ := parseElemsF_arr _ h
        exact absurd hm (by simp)
    · split at h
      · injection h with h1
        injection h1 with hv _
        exact absurd hv (by simp)
      · exact absurd h (by simp)
    · injection h with h1
      injection h1 with hv _
      exact absurd hv (by simp)
    · injection h with h1
      injection h1 with hv _
      exact absurd hv (by simp)
    · injection h with h1
      injection h1 with hv _
      exact absurd hv (by simp)
    · rename_i l0 c0 r0 hnb hna hnq hnt hnf2 hnn
      split at h
      · rw [parseNumber] at h
        split at h
        · injection h with h1
          injection h1 with hv hr
          injection hv with hxv
          exact ⟨hxv.symm, hr.symm⟩
        · exact absurd h (by simp)
      · exact absurd h (by simp)
    · exact absurd h (by simp)

theorem jsonParse_prefix_det {A Y : List Char} {v w : Json}
    (hA : jsonParse A = some v) (hready : completionReady A = true)
    (hAY : jsonParse (A ++ Y) = some w) : v = w := by
  rw [jsonParse] at hA hAY
  rcases hpA : parseValue (A.length + 1) (skipWs A) with _ | ⟨v1, R⟩
  · rw [hpA] at hA
    exact absurd hA (by simp)
  · rw [hpA] at hA
    have hA2 : (if skipWs R = [] then some v1 else none) = some v := hA
    split at hA2
    · rename_i hR
      injection hA2 with hv
      have hnotnum : ∀ t, v1 ≠ Json.num t := by
        intro t hv1
        subst hv1
        obtain ⟨ht, hrw⟩ := parseValue_num_shape _ hpA
        have hbrace : '\x7b' ∈ A := by
          rw [completionReady] at hready
          simp only [Bool.and_eq_true] at hready
          simpa using hready.1.2
        rw [← List.takeWhile_append_dropWhile (p := jsonWs) (l := A)] at hbrace
        rcases List.mem_append.1 hbrace with hmem | hmem
        · exact absurd (List.mem_takeWhile_imp hmem) (by decide)
        · rw [show List.dropWhile jsonWs A = skipWs A from rfl,
            ← List.takeWhile_append_dropWhile (p := numChar) (l := skipWs A)] at hmem
          rcases List.mem_append.1 hmem with hmem2 | hmem2
          · exact absurd (List.mem_takeWhile_imp hmem2) (by decide)
          · rw [← hrw] at hmem2
            exact absurd (all_of_dropWhile_eq_nil hR _ hmem2) (by decide)
      have hext := parseValue_extend (A.length + 1) Y hpA
        (fun t hv1 => absurd hv1 (hnotnum t))
      have hskA : skipWs A ≠ [] := by
        intro h0
        rw [h0, parseValue_nil] at hpA
        exact absurd hpA (by simp)
      have hmono := parseValue_mono (A.length + 1)
        (show A.length + 1 ≤ (A ++ Y).length + 1 by simp) hext
      rw [← skipWs_extend Y hskA] at hmono
      rw [hmono] at hAY
      have hAY2 : (if skipWs (R ++ Y) = [] then some v1 else none) = some w := hAY
      split at hAY2
      · injection hAY2 with hw
        rw [← hv, ← hw]
      · exact absurd hAY2 (by simp)
    · exact absurd hA2 (by simp)

theorem complete_not_in_deltaOf {a b : List Char} {v : Json} :
    SEvent.complete v ∉ deltaOf a b := by
  rw [deltaOf]
  split
  · intro h
    exact absurd (List.mem_singleton.1 h) (by simp)
  · simp

theorem complete_in_finish {buf : List Char} {v : Json}
    (h : SEvent.complete v ∈ finishEvents buf) :
    completionReady buf = true ∧ jsonParse buf = some v := by
  rw [finishEvents] at h
  split at h
  · rename_i hcr
    split at h
    · rename_i w hw
      have hm := List.mem_singleton.1 h
      injection hm with hvw
      exact ⟨hcr, by rw [hw, hvw]⟩
    · split at h
      · exact absurd (List.mem_singleton.1 h) (by simp)
      · exact absurd h (by simp)
  · exact absurd h (by simp)

theorem complete_in_done {st : DecState} {v : Json}
    (h : SEvent.complete v ∈ doneEvents st) : jsonParse st.buf = some v := by
  rw [doneEvents] at h
  split at h
  · exact absurd (List.mem_singleton.1 h) (by simp)
  · split at h
    · split at h
      · rename_i w hw
        have hm := List.mem_singleton.1 h
        injection hm with hvw
        rw [hw, hvw]
      · exact absurd (List.mem_singleton.1 h) (by simp)
    · exact absurd (List.mem_singleton.1 h) (by simp)

theorem stateAfter_buf (st : DecState) (c : List Char) :
    (stateAfter st c).buf = st.buf ++ c := by
  simp only [stateAfter]
  split <;> rfl

theorem runChunks_buf : ∀ {css : List (List Char)} {st st' : DecState}
    {evs : List SEvent}, runChunks st css = (evs, some st') →
    st'.buf = st.buf ++ css.flatten
  | [], st, st', evs, h => by
    rw [runChunks] at h
    rcases h with ⟨rfl, rfl⟩
    simp
  | c :: cs, st, st', evs, h => by
    rw [runChunks] at h
    rcases hc : consumeChunk st c with ⟨st1, evs1, alive⟩
    rw [hc] at h
    cases alive with
    | true =>
      have h2 : runChunks st1 cs = ((runChunks st1 cs).1, (runChunks st1 cs).2) := rfl
      have hsnd : (runChunks st1 cs).2 = some st' := by
        have := congrArg (fun p => p.2) h
        simpa using this
      have hb := runChunks_buf (show runChunks st1 cs = ((runChunks st1 cs).1, some st')
        from by rw [← hsnd])
      have hst1 : st1 = stateAfter st c := by
        have := congrArg (fun p => p.1) hc
        simpa [consumeChunk] using this.symm
      rw [hb, hst1, stateAfter_buf, List.flatten_cons, List.append_assoc]
    | false =>
      have : (none : Option DecState) = some st' := by
        have := congrArg (fun p => p.2) h
        simpa using this.symm
      exact absurd this (by simp)

theorem complete_run : ∀ (cs : List (List Char)) (st : DecState) (v : Json),
    SEvent.complete v ∈ (runChunks st cs).1 →
    ∃ k, 1 ≤ k ∧ k ≤ cs.length ∧
      completionReady (st.buf ++ (cs.take k).flatten) = true ∧
      jsonParse (st.buf ++ (cs.take k).flatten) = some v
  | [], st, v, h => by
    rw [runChunks] at h
    exact absurd h (by simp)
  | c :: cs, st, v, h => by
    rw [runChunks] at h
    rcases hc : consumeChunk st c with ⟨st1, evs1, alive⟩
    rw [hc] at h
    have hevs1 : evs1 = deltaOf st.sent (stepValue st c) ++ finishEvents (st.buf ++ c) := by
      have := congrArg (fun p => p.2.1) hc
      simpa [consumeChunk] using this.symm
    have hst1 : st1 = stateAfter st c := by
      have := congrArg (fun p => p.1) hc
      simpa [consumeChunk] using this.symm
    have hone : ∀ hf : SEvent.complete v ∈ evs1,
        ∃ k, 1 ≤ k ∧ k ≤ (c :: cs).length ∧
        completionReady (st.buf ++ ((c :: cs).take k).flatten) = true ∧
        jsonParse (st.buf ++ ((c :: cs).take k).flatten) = some v := by
      intro hf
      rw [hevs1] at hf
      rcases List.mem_append.1 hf with hd | hfe
      · exact absurd hd complete_not_in_deltaOf
      · obtain ⟨hr, hp⟩ := complete_in_finish hfe
        exact ⟨1, le_rfl, by simp, by simpa using hr, by simpa using hp⟩
    cases alive with
    | true =>
      have h' : SEvent.complete v ∈ evs1 ++ (runChunks st1 cs).1 := h
      rcases List.mem_append.1 h' with h1 | h2
      · exact hone h1
      · obtain ⟨k, hk1, hk2, hkr, hkp⟩ := complete_run cs st1 v h2
        have hb : st1.buf = st.buf ++ c := by
          rw [hst1, stateAfter_buf]
        refine ⟨k + 1, by omega, by simp only [List.length_cons]; omega, ?_, ?_⟩
        · rw [List.take_succ_cons, List.flatten_cons, ← List.append_assoc, ← hb]
          exact hkr
        · rw [List.take_succ_cons, List.flatten_cons, ← List.append_assoc, ← hb]
          exact hkp
    | false =>
      exact hone h

theorem flatten_take_front (css : List (List Char)) (k : Nat) :
    css.flatten.take ((css.take k).flatten).length = (css.take k).flatten ∧
    ((css.take k).flatten).length ≤ css.flatten.length := by
  have hsplit : (css.take k).flatten ++ (css.drop k).flatten = css.flatten := by
    rw [← List.flatten_append, List.take_append_drop]
  constructor
  · rw [← hsplit]
    exact List.take_left _ _
  · conv_rhs => rw [← hsplit]
    rw [List.length_append]
    omega

theorem complete_source {css : List (List Char)} {v : Json}
    (h : SEvent.complete v ∈ processStream css) :
    ∃ q, q ≤ css.flatten.length ∧
      jsonParse (css.flatten.take q) = some v ∧
      (completionReady (css.flatten.take q) = true ∨ q = css.flatten.length) := by
  have hmid : SEvent.complete v ∈ (runChunks initState css).1 →
      ∃ q, q ≤ css.flatten.length ∧
      jsonParse (css.flatten.take q) = some v ∧
      (completionReady (css.flatten.take q) = true ∨ q = css.flatten.length) := by
    intro h1
    obtain ⟨k, hk1, hk2, hr, hp⟩ := complete_run css initState v h1
    simp only [show initState.buf = [] from rfl, List.nil_append] at hr hp
    obtain ⟨hft, hfl⟩ := flatten_take_front css k
    exact ⟨((css.take k).flatten).length, hfl, by rw [hft]; exact hp,
      Or.inl (by rw [hft]; exact hr)⟩
  rw [processStream] at h
  rcases hrun : runChunks initState css with ⟨evs, ost⟩
  rw [hrun] at h
  cases ost with
  | some st' =>
    rcases List.mem_append.1 h with h1 | h2
    · exact hmid (by rw [hrun]; exact h1)
    · have hp := complete_in_done h2
      have hbuf : st'.buf = css.flatten := by
        have := runChunks_buf hrun
        simpa [show initState.buf = [] from rfl] using this
      exact ⟨css.flatten.length, le_rfl,
        by rw [List.take_length, ← hbuf]; exact hp, Or.inr rfl⟩
  | none =>
    exact hmid (by rw [hrun]; exact h)

theorem parse_prefix_agree {S : List Char} {q1 q2 : Nat} {v1 v2 : Json}
    (hq12 : q1 ≤ q2) (hq2 : q2 ≤ S.length)
    (h1 : jsonParse (S.take q1) = some v1)
    (hr1 : completionReady (S.take q1) = true ∨ q1 = S.length)
    (h2 : jsonParse (S.take q2) = some v2) : v1 = v2 := by
  rcases eq_or_lt_of_le hq12 with rfl | hlt
  · rw [h1] at h2
    injection h2
  · have hr : completionReady (S.take q1) = true := by
      rcases hr1 with h | h
      · exact h
      · exact absurd h (by omega)
    have hsplit : S.take q2 = S.take q1 ++ (S.take q2).drop q1 := by
      rw [show S.take q1 = (S.take q2).take q1 from by
        rw [List.take_take, Nat.min_eq_left (le_of_lt hlt)]]
      rw [List.take_append_drop]
    rw [hsplit] at h2
    exact jsonParse_prefix_det h1 hr h2

/-! ### The max-length error: exact emission conditions -/

/-- The error messages of one consume step are exactly those of its completion
phase: the delta phase contributes none. -/
theorem errMsgs_consumeChunk (st : DecState) (c : List Char) :
    errMsgs (consumeChunk st c).2.1 = errMsgs (finishEvents (st.buf ++ c)) := by
  simp only [consumeChunk]
  rw [errMsgs_append, isDelta_errMsgs deltaOf_isDelta, List.nil_append]

/-- The error messages of the completion phase: exactly the max-length message
when the structural check passes, the full parse fails and the buffer exceeds
the ceiling; none otherwise — and emitting it breaks the loop. -/
theorem errMsgs_finishEvents (buf : List Char) :
    (errMsgs (finishEvents buf) = [msgMaxLength] ↔
      completionReady buf = true ∧ jsonParse buf = none ∧ 50000 < buf.length) ∧
    (errMsgs (finishEvents buf) = [msgMaxLength] → finishAlive buf = false) ∧
    (errMsgs (finishEvents buf)).length ≤ 1 := by
  by_cases hcr : completionReady buf = true
  · rcases hp : jsonParse buf with _ | v
    · by_cases hlen : buf.length > 50000
      · have hfe : finishEvents buf = [SEvent.err msgMaxLength] := by
          rw [finishEvents, if_pos hcr, hp, if_pos hlen]
        have hfa : finishAlive buf = false := by
          rw [finishAlive, if_pos hcr, hp]
          simp [hlen]
        rw [hfe]
        exact ⟨⟨fun _ => ⟨hcr, rfl, hlen⟩, fun _ => rfl⟩, fun _ => hfa, Nat.le.refl⟩
      · have hfe : finishEvents buf = [] := by
          rw [finishEvents, if_pos hcr, hp, if_neg hlen]
        rw [hfe]
        exact ⟨⟨fun h => absurd h (by simp [errMsgs]), fun h => absurd h.2.2 hlen⟩,
               fun h => absurd h (by simp [errMsgs]), Nat.zero_le 1⟩
    · have hfe : finishEvents buf = [SEvent.complete v] := by
        rw [finishEvents, if_pos hcr, hp]
      rw [hfe]
      exact ⟨⟨fun h => absurd h (by simp [errMsgs]), fun h => absurd h.2.1 (by simp)⟩,
             fun h => absurd h (by simp [errMsgs]), by simp [errMsgs]⟩
  · have hfe : finishEvents buf = [] := by
      rw [finishEvents, if_neg hcr]
    rw [hfe]
    exact ⟨⟨fun h => absurd h (by simp [errMsgs]), fun h => absurd h.1 hcr⟩,
           fun h => absurd h (by simp [errMsgs]), Nat.zero_le 1⟩

/-- The end-of-stream handler never carries the max-length message. -/
theorem maxLength_not_in_done (st : DecState) :
    msgMaxLength ∉ errMsgs (doneEvents st) := by
  intro h
  rw [doneEvents] at h
  split at h
  · exact absurd (List.mem_singleton.1 h) (by decide)
  · split at h
    · split at h
      · exact List.not_mem_nil msgMaxLength h
      · exact absurd (List.mem_singleton.1 h) (by decide)
    · exact absurd (List.mem_singleton.1 h) (by decide)

/-- Over a whole chunk run, at most one max-length message is emitted, and a
run that survives to end-of-stream has emitted none. -/
theorem maxLength_run_count : ∀ (css : List (List Char)) (st : DecState)
    (evs : List SEvent) (r : Option DecState),
    runChunks st css = (evs, r) →
    (errMsgs evs).count msgMaxLength ≤ 1 ∧
    (r.isSome = true → (errMsgs evs).count msgMaxLength = 0)
  | [], st, evs, r, h => by
    rw [runChunks] at h
    rcases h with ⟨rfl, rfl⟩
    exact ⟨by simp [errMsgs], fun _ => by simp [errMsgs]⟩
  | c :: cs, st, evs, r, h => by
    rw [runChunks] at h
    rcases hc : consumeChunk st c with ⟨st1, evs1, alive⟩
    rw [hc] at h
    cases alive with
    | true =>
      simp only at h
      rcases hr : runChunks st1 cs with ⟨evs2, r2⟩
      rw [hr] at h
      simp only at h
      injection h with h1 h2
      have ih := maxLength_run_count cs st1 evs2 r2 hr
      have hd : errMsgs evs1 = [] := isDelta_errMsgs (consumeChunk_alive_delta hc)
      rw [← h1, ← h2, errMsgs_append, hd, List.nil_append]
      exact ih
    | false =>
      simp only at h
      injection h with h1 h2
      refine ⟨?_, fun hs => ?_⟩
      · have he1 : errMsgs evs1 = errMsgs (finishEvents (st.buf ++ c)) := by
          have hec := errMsgs_consumeChunk st c
          rw [hc] at hec
          exact hec
        rw [← h1, he1]
        exact le_trans (List.count_le_length _ _) (errMsgs_finishEvents (st.buf ++ c)).2.2
      · rw [← h2] at hs
        exact absurd hs (by simp)

/-- The two-junk-braces buffer is structurally ready: the scan ends at level
zero outside strings and both braces occur. -/
theorem junk_ready (n : Nat) :
    completionReady ('\x7b' :: '\x7d' :: List.replicate n 'x') = true := by
  have hscan : jsonScan ('\x7b' :: '\x7d' :: List.replicate n 'x') = ⟨0, false, false⟩ := by
    rw [jsonScan, List.foldl_cons, List.foldl_cons]
    rw [show scanStep (scanStep ⟨0, false, false⟩ '\x7b') '\x7d' = ⟨0, false, false⟩ from rfl]
    exact scan_replicate_plain (by decide) (by decide) (by decide) (by decide) n 0 false
  rw [completionReady, hscan]
  simp

/-- The junk-braces buffer satisfies all three max-length conditions once it
is long enough: structurally ready, unparseable, over the ceiling. -/
theorem junk_cond (n : Nat) (h1 : 1 ≤ n) (h2 : 50000 < n + 2) :
    completionReady ('\x7b' :: '\x7d' :: List.replicate n 'x') = true ∧
    jsonParse ('\x7b' :: '\x7d' :: List.replicate n 'x') = none ∧
    50000 < ('\x7b' :: '\x7d' :: List.replicate n 'x').length := by
  refine ⟨junk_ready n, junk_parse_none n h1, ?_⟩
  rw [List.length_cons, List.length_cons, List.length_replicate]
  omega

/-! ## Claim theorems -/

/-- Claim C10 (confirmed): for every stream whose transport signals
end-of-stream while the accumulated buffer trims to the empty string, the
decoder emits exactly one error event (the no-content message) and no
Complete and no Delta event. -/
theorem claim_C10 (css : List (List Char)) (h : jsTrim css.flatten = []) :
    processStream css = [SEvent.err msgNoContent] := by
  have hall := jsTrim_eq_nil_iff.1 h
  have hch : ∀ ch ∈ css, ∀ x ∈ ch, jsWsChar x = true := fun ch hch x hx =>
    hall x (List.mem_flatten.2 ⟨ch, hch, hx⟩)
  have hrun := runChunks_ws (B := []) (fun x hx => absurd hx (List.not_mem_nil x)) hch
  rw [processStream, show initState = (⟨[], false, (-1 : Int), []⟩ : DecState) from rfl, hrun]
  simp only [doneEvents, List.nil_append]
  rw [if_neg (by simp), if_neg (by simp [h])]

/-- Witness for C10 at the concrete whitespace stream `[" \n"]`. -/
theorem claim_C10_witness :
    jsTrim ([" \n".toList] : List (List Char)).flatten = [] ∧
    processStream [" \n".toList] = [SEvent.err msgNoContent] :=
  ⟨by decide, claim_C10 [" \n".toList] (by decide)⟩

/-- Claim C7 (amended): the delivery cursor never decreases; every consume
step updates the cursor to exactly the length of that step's computed value
when it grows and leaves it unchanged otherwise; each Delta is exactly the
slice of that step's value from the previous cursor, so consecutive deltas
are non-overlapping and over a whole run the delta texts tile the final sent
value.  (The bound cursor ≤ current-value length of the original claim fails
when the marker reoccurs in later content; see the counterexample.) -/
theorem claim_C7 :
    (∀ (st : DecState) (ch : List Char),
      st.sent.length ≤ (consumeChunk st ch).1.sent.length ∧
      (consumeChunk st ch).1.sent = sentAfter st.sent (stepValue st ch) ∧
      deltaTexts (consumeChunk st ch).2.1 =
        (if st.sent.length < (stepValue st ch).length
         then [(stepValue st ch).drop st.sent.length] else [])) ∧
    (∀ (css : List (List Char)) (evs : List SEvent) (st' : DecState),
      runChunks initState css = (evs, some st') →
      (deltaTexts evs).flatten.length = st'.sent.length) :=
  ⟨fun st ch => ⟨consumeChunk_sent_mono st ch, (consumeChunk_sent st ch).1,
     (consumeChunk_sent st ch).2⟩,
   fun css evs st' h => by simpa [initState] using runChunks_sent_total h⟩

/-- Counterexample to C7 as stated: after the value `ABC` closes (cursor 3),
a later chunk re-containing the marker makes the step's computed field value
`Z` of length 1, so the cursor exceeds the length of the currently known
field value. -/
theorem claim_C7_cex :
    runChunks initState ["\x7b\"response\": \"ABC\", \"x\": \"".toList] =
      ([SEvent.delta "ABC".toList],
       some ⟨"\x7b\"response\": \"ABC\", \"x\": \"".toList, false, 18, "ABC".toList⟩) ∧
    (stepValue ⟨"\x7b\"response\": \"ABC\", \"x\": \"".toList, false, 18, "ABC".toList⟩
        "\"response\": \"Z".toList).length <
      (DecState.mk "\x7b\"response\": \"ABC\", \"x\": \"".toList false 18
        "ABC".toList).sent.length :=
  ⟨rfl, by decide⟩

/-- Witness for C7's run-level conjunct at a concrete single-chunk stream. -/
theorem claim_C7_witness :
    (deltaTexts [SEvent.delta "ab".toList]).flatten.length =
      (DecState.mk "\x7b\"response\": \"ab".toList true 14 "ab".toList).sent.length :=
  claim_C7.2 ["\x7b\"response\": \"ab".toList] [SEvent.delta "ab".toList]
    ⟨"\x7b\"response\": \"ab".toList, true, 14, "ab".toList⟩ rfl

/-- Claim C2 (confirmed): in the decoder\'s value scan a quote terminates the
value iff the count of consecutive backslashes immediately preceding it is
even (the scan returns exactly the first such quote, skipping quotes with odd
backslash runs); in particular a `\\"` sequence split between two chunks is
not taken as a terminator (the quote is delivered as value content and the
value closes at the real closing quote), and a value ending in an escaped
backslash directly followed by the closing quote does terminate. -/
theorem claim_C2 :
    (∀ (buf : List Char) (vs q : Nat),
      findEndQuote buf vs = some q ↔
        (vs ≤ q ∧ buf[q]? = some '"' ∧ bsCount buf vs q % 2 = 0 ∧
         ∀ j, vs ≤ j → j < q → buf[j]? = some '"' → bsCount buf vs j % 2 = 1)) ∧
    processStream ["\x7b\"response\": \"ab\\".toList, ("\"cd".toList ++ encTail)] =
      [SEvent.delta "ab\\".toList, SEvent.delta "\"cd".toList,
       SEvent.complete (objNull "ab\"cd".toList)] ∧
    processStream [wire "x\\".toList] =
      [SEvent.delta "x\\\\".toList, SEvent.complete (objNull "x\\".toList)] :=
  ⟨fun _ _ _ => findEndQuote_iff, rfl, rfl⟩

/-- Witness for C2\'s characterization at a concrete buffer: the quote right
after `a` (zero preceding backslashes) is the terminator. -/
theorem claim_C2_witness :
    findEndQuote "\x7b\"response\": \"a\"".toList 14 = some 15 :=
  (claim_C2.1 "\x7b\"response\": \"a\"".toList 14 15).mpr
    ⟨by omega, by decide, by decide, fun j h1 h2 hq => by
      have hj : j = 14 := by omega
      subst hj
      exact absurd hq (by decide)⟩

/-- Claim C8 (amended): once the decoder has closed the value (not inside the
value, non-negative resume index), no later consume step emits any Delta,
provided the marker string does not occur in the whole remaining stream
content at or after the resume index.  (The original claim asserted this for
every continuation, including ones re-containing the marker; see the
counterexample.) -/
theorem claim_C8 (st : DecState) (css : List (List Char))
    (hin : st.insideValue = false) (hge : 0 ≤ st.startIdx)
    (hno : indexOfFrom (st.buf ++ css.flatten) respMarker st.startIdx.toNat = none) :
    deltaTexts (runChunks st css).1 = [] :=
  runChunks_no_marker_no_delta hin hge hno

/-- Counterexample to C8 as stated: after the value `A` closes (state
ValueClosed, resume index 16), a continuation containing the literal marker
inside a later field\'s string content makes the decoder emit another delta
(`C`). -/
theorem claim_C8_cex :
    runChunks initState ["\x7b\"response\": \"A\", \"x\": \"".toList] =
      ([SEvent.delta "A".toList],
       some ⟨"\x7b\"response\": \"A\", \"x\": \"".toList, false, 16, "A".toList⟩) ∧
    processStream ["\x7b\"response\": \"A\", \"x\": \"".toList,
        "\"response\": \"BC".toList] =
      [SEvent.delta "A".toList, SEvent.delta "C".toList, SEvent.err msgUnterminated] :=
  ⟨rfl, rfl⟩

/-- Witness for C8 at the closed state of the counterexample\'s first chunk
with a marker-free continuation. -/
theorem claim_C8_witness :
    deltaTexts (runChunks
      ⟨"\x7b\"response\": \"A\", \"x\": \"".toList, false, 16, "A".toList⟩
      ["\x7d".toList]).1 = [] :=
  claim_C8 _ _ rfl (by decide) (by decide)

/-- Claim C3 (amended): the max-length error is governed by the completion
check, not by whether the value's closing quote ever arrives.  A consume step
emits it exactly when the appended buffer passes the structural completion
check, the full parse fails and the buffer exceeds the 50000-character
ceiling; that step emits no other error and breaks the loop; the end-of-stream
handler never emits the message, and a whole run carries it at most once.
(The original claim's never-closing over-ceiling streams need not trigger it
at all; see the counterexample.) -/
theorem claim_C3 :
    (∀ (st : DecState) (chunk : List Char),
      (errMsgs (consumeChunk st chunk).2.1 = [msgMaxLength] ↔
        completionReady (st.buf ++ chunk) = true ∧
        jsonParse (st.buf ++ chunk) = none ∧
        50000 < (st.buf ++ chunk).length) ∧
      (errMsgs (consumeChunk st chunk).2.1 = [msgMaxLength] →
        (consumeChunk st chunk).2.2 = false)) ∧
    (∀ st : DecState, msgMaxLength ∉ errMsgs (doneEvents st)) ∧
    (∀ css : List (List Char),
      (errMsgs (processStream css)).count msgMaxLength ≤ 1) := by
  refine ⟨fun st chunk => ?_, maxLength_not_in_done, fun css => ?_⟩
  · have he := errMsgs_consumeChunk st chunk
    have hf := errMsgs_finishEvents (st.buf ++ chunk)
    refine ⟨by rw [he]; exact hf.1, fun h => ?_⟩
    have hfa := hf.2.1 (by rw [← he]; exact h)
    show finishAlive (st.buf ++ chunk) = false
    exact hfa
  · rcases hr : runChunks initState css with ⟨evs, r⟩
    have hcount := maxLength_run_count css initState evs r hr
    cases r with
    | none =>
      have hps : processStream css = evs := by rw [processStream, hr]
      rw [hps]
      exact hcount.1
    | some st =>
      have hps : processStream css = evs ++ doneEvents st := by rw [processStream, hr]
      rw [hps, errMsgs_append, List.count_append]
      have h1 : (errMsgs evs).count msgMaxLength = 0 := hcount.2 rfl
      have h2 : (errMsgs (doneEvents st)).count msgMaxLength = 0 :=
        List.count_eq_zero_of_not_mem (maxLength_not_in_done st)
      omega

/-- Counterexample to C3 as stated: chunks that never close the value with a
buffer of 50004 characters after the first consume step (the step in which the
ceiling is crossed) produce no max-length error at all — only deltas and the
final unterminated-value error. -/
theorem claim_C3_cex :
    50000 < (encHeader ++ List.replicate 49990 'a').length ∧
    processStream [encHeader ++ List.replicate 49990 'a', List.replicate 20 'a'] =
      [SEvent.delta (List.replicate 49990 'a'), SEvent.delta (List.replicate 20 'a'),
       SEvent.err msgUnterminated] ∧
    msgUnterminated ≠ msgMaxLength :=
  ⟨by rw [List.length_append, encHeader_len, List.length_replicate]; omega,
   unclosedValueRun 49990 20 (by omega) (by omega),
   by decide⟩

/-- Witness for C3 at the concrete over-ceiling junk buffer
`\x7b\x7d` followed by 50001 `x`s, fed to the initial state. -/
theorem claim_C3_witness :
    errMsgs (consumeChunk initState ('\x7b' :: '\x7d' :: List.replicate 50001 'x')).2.1 =
      [msgMaxLength] ∧
    (consumeChunk initState ('\x7b' :: '\x7d' :: List.replicate 50001 'x')).2.2 = false := by
  have hba : initState.buf ++ ('\x7b' :: '\x7d' :: List.replicate 50001 'x') =
      '\x7b' :: '\x7d' :: List.replicate 50001 'x' := List.nil_append _
  have hcond : completionReady
        (initState.buf ++ ('\x7b' :: '\x7d' :: List.replicate 50001 'x')) = true ∧
      jsonParse (initState.buf ++ ('\x7b' :: '\x7d' :: List.replicate 50001 'x')) = none ∧
      50000 < (initState.buf ++ ('\x7b' :: '\x7d' :: List.replicate 50001 'x')).length := by
    rw [hba]
    exact junk_cond 50001 (by omega) (by omega)
  have h1 := ((claim_C3.1 initState ('\x7b' :: '\x7d' :: List.replicate 50001 'x')).1).mpr hcond
  exact ⟨h1, (claim_C3.1 initState ('\x7b' :: '\x7d' :: List.replicate 50001 'x')).2 h1⟩

/-- Claim C9 (amended): the end-to-end run on fragments `Hel`, `lo, `,
`cómo estás?` followed by done emits exactly those three deltas in order and
one Complete whose object is `\x7bresponse: "Hello, cómo estás?", all other
fields null\x7d` — the handler writes the literal all-null tail regardless of
any context, so `currentWord`/`currentWordProgress` are null, not the
context values the original claim expected. -/
theorem claim_C9 :
    processStream (encoderWrites ["Hel".toList, "lo, ".toList, "cómo estás?".toList]) =
      [SEvent.delta "Hel".toList, SEvent.delta "lo, ".toList,
       SEvent.delta "cómo estás?".toList,
       SEvent.complete (objNull "Hello, cómo estás?".toList)] := by
  set_option maxRecDepth 10000 in rfl

/-- Counterexample to C9 as stated: the Complete object of the end-to-end run
has `currentWord = null` and `currentWordProgress = null`, not `"hola"` and
`"pronunciation"`: the handler ignores the session context when closing the
object. -/
theorem claim_C9_cex :
    processStream (encoderWrites ["Hel".toList, "lo, ".toList, "cómo estás?".toList]) =
      [SEvent.delta "Hel".toList, SEvent.delta "lo, ".toList,
       SEvent.delta "cómo estás?".toList,
       SEvent.complete (objNull "Hello, cómo estás?".toList)] ∧
    objNull "Hello, cómo estás?".toList ≠
      Json.obj [("response".toList, Json.str "Hello, cómo estás?".toList),
                ("currentCategory".toList, Json.null),
                ("currentWord".toList, Json.str "hola".toList),
                ("currentWordProgress".toList, Json.str "pronunciation".toList),
                ("exercises".toList, Json.null)] :=
  ⟨by set_option maxRecDepth 10000 in rfl, by simp [objNull]⟩

/-- C5 counterexample: the handler passes the control character U+0001 through
unescaped, so the complete output of the single fragment `"\x01"` is not valid
JSON at all — `JSON.parse` rejects it (our model returns `none`), against the
claim that the complete output always parses as a `ParsedObject`. -/
theorem claim_C5_cex :
    jsonParse (encodeStream [['\x01']]) = none := by
  set_option maxRecDepth 10000 in rfl

/-- C5 (amended): for fragments whose characters survive the handler's escaping
as legal JSON string content (no control characters other than the three the
handler escapes), the complete output parses as the `ParsedObject` with
`response` equal to the concatenated fragments and the remaining fields null in
wire order, and the bytes written after each fragment are a prefix of that
complete valid object.  Each fragment is written as its `jsEscape` image
(definitionally, via `encodedUpTo`). -/
theorem claim_C5 (frags : List (List Char))
    (hs : ∀ fr ∈ frags, ∀ c ∈ fr, safeChar c = true) :
    jsonParse (encodeStream frags) = some (objNull frags.flatten) ∧
    ∀ k, ∃ t, encodedUpTo frags k ++ t = encodeStream frags := by
  constructor
  · rw [encodeStream_eq_wire]
    refine jsonParse_wire _ ?_
    intro c hc
    rw [List.mem_flatten] at hc
    obtain ⟨fr, hfr, hcfr⟩ := hc
    exact hs fr hfr c hcfr
  · intro k
    refine ⟨(frags.drop k).flatMap jsEscape ++ encTail, ?_⟩
    rw [encodedUpTo, encodeStream]
    rw [List.append_assoc, ← List.append_assoc ((frags.take k).flatMap jsEscape)]
    rw [← List.flatMap_append, List.take_append_drop, List.append_assoc]

/-- C5 witness: the amended theorem at the concrete fragments `["Hi", "!"]`. -/
theorem claim_C5_witness :
    jsonParse (encodeStream ["Hi".toList, "!".toList]) =
      some (objNull "Hi!".toList) ∧
    ∃ t, encodedUpTo ["Hi".toList, "!".toList] 1 ++ t =
      encodeStream ["Hi".toList, "!".toList] := by
  have h := claim_C5 ["Hi".toList, "!".toList] (by decide)
  exact ⟨by rw [h.1]; rfl, h.2 1⟩

/-- C1 (amended): for every partition of a complete, valid wire object into
non-empty chunks, the emitted events are exactly a sequence of deltas followed
by one `Complete` carrying the parsed object, and the concatenation of the
delta texts equals the raw (still escaped) text of the `response` value — not
its unescaped value. -/
theorem claim_C1 (s : List Char) (hs : ∀ c ∈ s, safeChar c = true)
    (css : List (List Char)) (hne : ∀ c ∈ css, c ≠ []) (hcs : css ≠ [])
    (hcat : css.flatten = wire s) :
    ∃ ds : List (List Char),
      processStream css = ds.map SEvent.delta ++ [SEvent.complete (objNull s)] ∧
      ds.flatten = escapeJSON s := by
  obtain ⟨ds, h1, h2⟩ := runChunks_wire s hs css 0 hcs hne (Nat.zero_le _)
    (by rw [List.drop_zero]; exact hcat)
  refine ⟨ds, ?_, ?_⟩
  · rw [processStream]
    rw [show initState = expState s 0 from rfl]
    rw [h1]
  · simpa using h2

/-- C1 counterexample: for the wire object whose `response` value is `a"b`
fed as a single chunk, the deltas concatenate to the four raw characters
`a\"b` while the `response` field of the `Complete` object is the three
characters `a"b`: the decoder emits raw escaped text, so the concatenation is
not the unescaped value the claim demands. -/
theorem claim_C1_cex :
    deltaTexts (processStream [wire ['a', '"', 'b']]) = [['a', '\\', '"', 'b']] ∧
    completions (processStream [wire ['a', '"', 'b']]) = [objNull ['a', '"', 'b']] ∧
    ([['a', '\\', '"', 'b']] : List (List Char)).flatten ≠ ['a', '"', 'b'] :=
  ⟨by set_option maxRecDepth 10000 in rfl,
   by set_option maxRecDepth 10000 in rfl,
   by decide⟩

/-- C1 witness: the amended theorem applied to the wire object for `Hi` split
into two chunks (the split falls inside the field marker). -/
theorem claim_C1_witness :
    ∃ ds : List (List Char),
      processStream ["\x7b\"respo".toList,
        "nse\": \"Hi\", \"currentCategory\": null, \"currentWord\": null, \"currentWordProgress\": null, \"exercises\": null\x7d".toList] =
        ds.map SEvent.delta ++ [SEvent.complete (objNull "Hi".toList)] ∧
      ds.flatten = escapeJSON "Hi".toList :=
  claim_C1 "Hi".toList (by decide) _ (by decide) (by decide)
    (by set_option maxRecDepth 10000 in rfl)

/-- C6 (amended): any two chunkings of the same byte sequence agree on every
`Complete` payload they emit — in particular a single-chunk feed and a split
feed that both complete yield the identical `ParsedObject`.  (Completion
itself is chunking-dependent: see the counterexample.) -/
theorem claim_C6 (S : List Char) (css1 css2 : List (List Char))
    (h1 : css1.flatten = S) (h2 : css2.flatten = S) (v1 v2 : Json)
    (hv1 : SEvent.complete v1 ∈ processStream css1)
    (hv2 : SEvent.complete v2 ∈ processStream css2) : v1 = v2 := by
  subst h1
  obtain ⟨q1, hq1l, hq1p, hq1r⟩ := complete_source hv1
  obtain ⟨q2, hq2l, hq2p, hq2r⟩ := complete_source hv2
  rw [h2] at hq2l hq2p hq2r
  rcases le_total q1 q2 with hle | hle
  · exact parse_prefix_agree hle hq2l hq1p hq1r hq2p
  · exact (parse_prefix_agree hle hq1l hq2p hq2r hq1p).symm

/-- C6 counterexample: the byte sequence `{}{}` is accepted when fed as the
two chunks `{}`,`{}` (the first chunk is structurally complete and parses, so a
`Complete` with the empty object fires and the loop breaks), but fed as one
single chunk the whole-buffer parse fails and no `Complete` is ever emitted:
the two runs do not both pass an identical object to `onStreamEnd`, one run
passes nothing at all. -/
theorem claim_C6_cex :
    completions (processStream [['\x7b', '\x7d', '\x7b', '\x7d']]) = [] ∧
    completions (processStream [['\x7b', '\x7d'], ['\x7b', '\x7d']]) = [Json.obj []] ∧
    ([['\x7b', '\x7d'], ['\x7b', '\x7d']] : List (List Char)).flatten =
      ['\x7b', '\x7d', '\x7b', '\x7d'] :=
  ⟨rfl, rfl, by decide⟩

/-- C6 witness: the amended theorem at the sequence `{}` fed whole versus fed
as two single-character chunks; both runs complete with the empty object. -/
theorem claim_C6_witness : Json.obj [] = Json.obj [] :=
  claim_C6 ['\x7b', '\x7d'] [['\x7b', '\x7d']] [['\x7b'], ['\x7d']] rfl rfl
    (Json.obj []) (Json.obj [])
    (by rw [show processStream [['\x7b', '\x7d']] = [SEvent.complete (Json.obj [])] from rfl]
        exact List.mem_singleton.2 rfl)
    (by rw [show processStream [['\x7b'], ['\x7d']] = [SEvent.complete (Json.obj [])] from rfl]
        exact List.mem_singleton.2 rfl)

end LLStream
